import Mathlib

/-!
Verification development for `networkIRR.py` (class `NetworkIRR`).

The Python class keeps an adjacency matrix plus lazily computed, cached
representation-theoretic data (IRR degeneracies, projection operators, a
transformation operator).  The embedding models it as follows.

* Numbers: Python/numpy floating point values are modelled exactly by
  rationals (`ℚ`); complex values by pairs of rationals (`Cx`).
* Sage calls (`automorphism_group`, `conjugacy_classes`, `character_table`,
  `ConjugacyClass(...).list()`) and `numpy.linalg.svd` are external engines.
  Their responses for the object's current adjacency matrix are supplied as an
  `Oracle` record; every external call bumps the `calls` counter of the state,
  which makes "no recomputation on a cache hit" observable.
* The numpy arrays stored in `_adjmat`, `_projection_operators` and
  `_transformation_operator` are mutable objects that may be handed to
  callers either as fresh copies (`.copy()`) or as references into the
  internal state.  To make the difference observable the matrices live in
  explicit heaps (`heapR` for real, `heapC` for complex matrices) and these
  fields hold indices into the heaps; `.copy()` is a fresh allocation.
* A Python cache test `x == None` on a cached field is modelled as the
  corresponding `Option` being `none`.
* Raised Python exceptions become `Except.error`; the state carried alongside
  the error is the object's state at the moment of the raise (Python leaves
  the mutated object behind).
-/

deriving instance DecidableEq for Except

/-- Exact model of a Python/numpy complex number. -/
structure Cx where
  re : ℚ
  im : ℚ
deriving DecidableEq, Repr

instance : Zero Cx := ⟨⟨0, 0⟩⟩

instance : Add Cx := ⟨fun a b => ⟨a.re + b.re, a.im + b.im⟩⟩

instance : Mul Cx := ⟨fun a b => ⟨a.re * b.re - a.im * b.im, a.re * b.im + a.im * b.re⟩⟩

/-- Complex conjugation (`np.conj`). -/
def Cx.conj (c : Cx) : Cx := ⟨c.re, -c.im⟩

/-- Embedding a real scalar as a complex one. -/
def Cx.ofRat (q : ℚ) : Cx := ⟨q, 0⟩

/-- Real matrices (integer permutation matrices, adjacency matrices). -/
abbrev MatR := List (List ℚ)

/-- Complex matrices (character rows, projection operators, SVD factors). -/
abbrev MatC := List (List Cx)

/-- Floor of a rational number. -/
def ratFloor (q : ℚ) : ℤ := q.num.ediv q.den

/-- Python 3 `round` on an exact real: round half to even (banker's rounding). -/
def pyRound (q : ℚ) : ℤ :=
  let f := ratFloor q
  let r := q - (f : ℚ)
  if r < 1/2 then f
  else if (1 : ℚ)/2 < r then f + 1
  else if f % 2 = 0 then f else f + 1

/-- Python `int(...)` on an exact real: truncation toward zero. -/
def pyInt (q : ℚ) : ℤ := if q < 0 then -(ratFloor (-q)) else ratFloor q

/-- Python sequence indexing: indices in `[0, len)` are used directly,
indices in `[-len, 0)` wrap around to `len + j`, anything else raises
`IndexError` (modelled as `none`). -/
def pyIdx (len : ℕ) (j : ℤ) : Option ℕ :=
  if 0 ≤ j ∧ j < (len : ℤ) then some j.toNat
  else if -(len : ℤ) ≤ j ∧ j < 0 then some (j + len).toNat
  else none

/-- Python indexing of a list with wrap-around, returning a default when the
index is out of range. -/
def pyGetD (l : List α) (j : ℤ) (d : α) : α :=
  match pyIdx l.length j with
  | some k => l.getD k d
  | none => d

/-- Elementwise product of a real (permutation) matrix with a complex scalar
(`mat * complex(ch)`). -/
def smulRC (c : Cx) (m : MatR) : MatC :=
  m.map (fun row => row.map (fun q => Cx.ofRat q * c))

/-- Elementwise matrix addition (numpy `+` on same-shape arrays). -/
def mAddC (a b : MatC) : MatC :=
  List.zipWith (fun ra rb => List.zipWith (fun x y => x + y) ra rb) a b

/-- `np.zeros((r, c))`. -/
def mZerosC (r c : ℕ) : MatC := List.replicate r (List.replicate c 0)

/-- Elementwise multiplication of a complex matrix by a real scalar from the
right (`result * np.float(d)`). -/
def mScaleQ (m : MatC) (q : ℚ) : MatC :=
  m.map (fun row => row.map (fun x => ⟨x.re * q, x.im * q⟩))

/-- Elementwise division of a complex matrix by a real scalar
(`... / np.float(g)`). -/
def mDivQ (m : MatC) (q : ℚ) : MatC :=
  m.map (fun row => row.map (fun x => ⟨x.re / q, x.im / q⟩))

/-- Scalar multiple of a complex matrix, scalar written on the left; used for
the specification-side formulas `(d_i / |G|) · Σ ...`. -/
def mSMulQ (q : ℚ) (m : MatC) : MatC :=
  m.map (fun row => row.map (fun x => ⟨q * x.re, q * x.im⟩))

/-- `np.trace` of a real matrix: sum of the diagonal. -/
def traceR (m : MatR) : ℚ :=
  (List.range m.length).foldl (fun a i => a + (m.getD i []).getD i 0) 0

/-- Responses of the external engines (Sage, `numpy.linalg.svd`) for the
object's current adjacency matrix:
`order` = group order, `permMats` = the group elements as node-space
permutation matrices, `orbits` = orbits of the automorphism group,
`classReps` = the conjugacy classes as returned by Sage (modelled by their
representatives), `classMats` = all elements of each conjugacy class as
permutation matrices, `charTable` = the character table (rows = IRRs),
`svd` = the singular value decomposition `(U, W, VH)` as computed by
`numpy.linalg.svd`. -/
structure Oracle where
  order : ℕ
  permMats : List MatR
  orbits : List (List ℕ)
  classReps : List MatR
  classMats : List (List MatR)
  charTable : MatC
  svd : MatC → MatC × List ℚ × MatC

/-- Number of IRRs as the code derives it: `len(characters[0])`, the length
of the first row of the character table. -/
def Oracle.numIRRs (o : Oracle) : ℕ := (o.charTable.headD []).length

/-- Heap allocation of a fresh matrix object; returns the new heap and the
reference (index) of the new cell. -/
def hAlloc (h : List α) (v : α) : List α × ℕ := (h ++ [v], h.length)

/-- Heap dereference. -/
def hGet (h : List α) (r : ℕ) (d : α) : α := h.getD r d

/-- Errors the embedded methods can raise.  `attributeError` models
`None.copy()` (`AttributeError`), `indexError` an out-of-range list index,
`exception` the bare `raise Exception` of `get_transformation_operator`. -/
inductive Err where
  | attributeError
  | indexError
  | exception
deriving DecidableEq, Repr

/-- Instance state of a `NetworkIRR` object.  The `_`-prefixed Python fields
are embedded under the same names without the underscore.  `heapR`/`heapC`
are the stores of mutable real/complex matrix objects, `calls` counts calls
into the external engines. -/
structure St where
  heapR : List MatR
  heapC : List MatC
  calls : ℕ
  adjmat : Option ℕ
  nnodes : ℕ
  group : Option Unit
  orbits : Option (List (List ℕ))
  permutation_matrices : Option (List MatR)
  conjugacy_classes : Option (List MatR)
  conjugacy_classes_matrices : Option (List (List MatR))
  character_table : Option MatC
  IRR_degeneracies : Option (List ℤ)
  projection_operators : Option (List (Option ℕ))
  transformation_operator : Option ℕ
deriving DecidableEq, Repr

/-- A freshly created object, before `__init__` populates it. -/
def emptySt : St :=
  { heapR := []
    heapC := []
    calls := 0
    adjmat := none
    nnodes := 0
    group := none
    orbits := none
    permutation_matrices := none
    conjugacy_classes := none
    conjugacy_classes_matrices := none
    character_table := none
    IRR_degeneracies := none
    projection_operators := none
    transformation_operator := none }

/-- The degeneracy computation of `get_IRR_degeneracies` as a pure function of
the character table, group order and conjugacy-class matrices:
`total += float(len(matricies[j])/group_order) * np.conj(characters[i][j])
* np.trace(matricies[j][0])`, then `round(np.real(total))`. -/
def degenOf (ct : MatC) (group_order : ℕ) (mats : List (List MatR)) : List ℤ :=
  let numIRRs := (ct.headD []).length
  (List.range numIRRs).map (fun i =>
    pyRound ((List.range numIRRs).foldl (fun total j =>
      total + Cx.ofRat (((mats.getD j []).length : ℚ) / (group_order : ℚ)) *
        Cx.conj ((ct.getD i []).getD j 0) *
        Cx.ofRat (traceR ((mats.getD j []).headD []))) 0).re)

/-- The projector computation of `get_projection_operator` as a pure function:
`result = zeros(n,n); for i in range(len(characters)): for mat in
matricies[i]: result = result + mat*complex(characters[i])`, then
`result*np.float(IRR_dimension)/np.float(group_order)`. -/
def projCompute (n : ℕ) (row : List Cx) (mats : List (List MatR)) (dim : Cx)
    (group_order : ℕ) : MatC :=
  let result := (List.range row.length).foldl (fun result i =>
    (mats.getD i []).foldl
      (fun result mat => mAddC result (smulRC (row.getD i 0) mat)) result)
    (mZerosC n n)
  mDivQ (mScaleQ result dim.re) (group_order : ℚ)

/-- Tolerance `epsilon = 1e-12` of `get_transformation_operator`. -/
def eps : ℚ := 1 / 1000000000000

/-- Rows of `VH` whose singular value `w` passes `np.abs(w-1.0) < epsilon`,
in order (`for i,w in enumerate(W): if ...: result.append(VH[i])`). -/
def collectRows (W : List ℚ) (VH : MatC) : MatC :=
  (W.enum.filter (fun p => |p.2 - 1| < eps)).map (fun p => VH.getD p.1 [])

namespace NetworkIRR

/-- `_reset_data`: clear every instance field.  The heaps (the objects
themselves) and the external-call counter are unaffected. -/
def reset_data (st : St) : St :=
  { st with
    adjmat := none
    nnodes := 0
    group := none
    orbits := none
    permutation_matrices := none
    conjugacy_classes := none
    conjugacy_classes_matrices := none
    character_table := none
    IRR_degeneracies := none
    projection_operators := none
    transformation_operator := none }

/-- `_set_adjacency_matrix`: reset, then `self._adjmat =
np.array(adjmat.copy())`, `self._nnodes = len(self._adjmat)`.  With
`adjmat=None` the `.copy()` raises `AttributeError`, after the reset has
already happened.  No validation of the matrix is performed. -/
def set_adjacency_matrix (st : St) (adjmat : Option MatR) : Except Err Unit × St :=
  let st1 := reset_data st
  match adjmat with
  | none => (.error .attributeError, st1)
  | some m =>
    let p := hAlloc st1.heapR m
    (.ok (), { st1 with
      heapR := p.1
      adjmat := some p.2
      nnodes := m.length })

/-- `__init__`: `_reset_data()` then `_set_adjacency_matrix(adjmat)`. -/
def init (adjmat : Option MatR) : Except Err Unit × St :=
  set_adjacency_matrix (reset_data emptySt) adjmat

/-- State of a fresh object constructed on adjacency matrix `m`. -/
def initSt (m : MatR) : St := (init (some m)).2

/-- `get_adjacency_matrix`: `return self._adjmat.copy()` — a fresh heap cell
holding the same matrix value. -/
def get_adjacency_matrix (st : St) : Except Err ℕ × St :=
  match st.adjmat with
  | none => (.error .attributeError, st)
  | some r =>
    let p := hAlloc st.heapR (hGet st.heapR r [])
    (.ok p.2, { st with heapR := p.1 })

/-- `get_automorphism_group`: on a cache miss one Sage call computes the
group and the orbits; returns (a copy of) the opaque group object. -/
def get_automorphism_group (o : Oracle) (st : St) : Unit × St :=
  match st.group with
  | some _ => ((), st)
  | none =>
    ((), { st with
      group := some ()
      orbits := some o.orbits
      calls := st.calls + 1 })

/-- `get_automorphism_group_matrices`: permutation matrices of all group
elements; one Sage call (`self._group.list()`) on a cache miss. -/
def get_automorphism_group_matrices (o : Oracle) (st : St) : List MatR × St :=
  let st1 := if st.group.isNone then (get_automorphism_group o st).2 else st
  match st1.permutation_matrices with
  | some l => (l, st1)
  | none =>
    (o.permMats, { st1 with
      permutation_matrices := some o.permMats
      calls := st1.calls + 1 })

/-- `get_orbits`: starts with `print(self.get_adjacency_matrix())` (which
copies the adjacency matrix, and raises if it is unset), then computes group
and orbits on a cache miss. -/
def get_orbits (o : Oracle) (st : St) : Except Err (List (List ℕ)) × St :=
  match get_adjacency_matrix st with
  | (.error e, st1) => (.error e, st1)
  | (.ok _, st1) =>
    match st1.orbits with
    | some v => (.ok v, st1)
    | none =>
      (.ok o.orbits, { st1 with
        group := some ()
        orbits := some o.orbits
        calls := st1.calls + 1 })

/-- `get_character_table`: `self.get_automorphism_group().character_table()`
on a cache miss; returns (a copy of) the table. -/
def get_character_table (o : Oracle) (st : St) : MatC × St :=
  match st.character_table with
  | some ct => (ct, st)
  | none =>
    let st1 := (get_automorphism_group o st).2
    (o.charTable, { st1 with
      character_table := some o.charTable
      calls := st1.calls + 1 })

/-- `get_conjugacy_classes`: one Sage call on a cache miss. -/
def get_conjugacy_classes (o : Oracle) (st : St) : List MatR × St :=
  match st.conjugacy_classes with
  | some v => (v, st)
  | none =>
    let st1 := if st.group.isNone then (get_automorphism_group o st).2 else st
    (o.classReps, { st1 with
      conjugacy_classes := some o.classReps
      calls := st1.calls + 1 })

/-- `get_conjugacy_classes_matrices`: one Sage call
(`ConjugacyClass(...).list()`) per conjugacy class on a cache miss. -/
def get_conjugacy_classes_matrices (o : Oracle) (st : St) :
    List (List MatR) × St :=
  let st1 := if st.conjugacy_classes.isNone then (get_conjugacy_classes o st).2
             else st
  match st1.conjugacy_classes_matrices with
  | some l => (l, st1)
  | none =>
    let reps := st1.conjugacy_classes.getD []
    (o.classMats, { st1 with
      conjugacy_classes_matrices := some o.classMats
      calls := st1.calls + reps.length })

/-- `get_numIRRs`: `len(self.get_character_table()[0])`. -/
def get_numIRRs (o : Oracle) (st : St) : ℕ × St :=
  let p := get_character_table o st
  ((p.1.headD []).length, p.2)

/-- `get_IRR_degeneracies`: on a cache miss, fetch character table, group
order and conjugacy-class matrices, then apply the counting formula
(`degenOf`) and cache the resulting list. -/
def get_IRR_degeneracies (o : Oracle) (st : St) : List ℤ × St :=
  match st.IRR_degeneracies with
  | some l => (l, st)
  | none =>
    let p1 := get_character_table o st
    let st2 := (get_automorphism_group o p1.2).2
    let p3 := get_conjugacy_classes_matrices o st2
    let l := degenOf p1.1 o.order p3.1
    (l, { p3.2 with IRR_degeneracies := some l })

/-- `get_projection_operator(j)`: always computes the degeneracies first and
initializes the cache list `[None]*len(degen)` if needed; then Python list
indexing on the cache (wrap-around for negative `j`, `IndexError` outside
`[-len, len)`).  On a cache miss for the (wrapped) index the projector is
computed (`projCompute`) from character-table row `j`, the group order and
the conjugacy-class matrices, stored in a fresh heap cell, cached, and that
very heap reference is returned (no copy is made). -/
def get_projection_operator (o : Oracle) (st : St) (j : ℤ) : Except Err ℕ × St :=
  let pd := get_IRR_degeneracies o st
  let st2 := if pd.2.projection_operators.isNone
             then { pd.2 with projection_operators := some (List.replicate pd.1.length none) }
             else pd.2
  let l := st2.projection_operators.getD []
  match pyIdx l.length j with
  | none => (.error .indexError, st2)
  | some jn =>
    match l.getD jn none with
    | some r => (.ok r, st2)
    | none =>
      let p1 := get_character_table o st2
      let dim := (pyGetD p1.1 j []).getD 0 0
      let st4 := (get_automorphism_group o p1.2).2
      let p2 := get_character_table o st4
      let characters := pyGetD p2.1 j []
      let p3 := get_conjugacy_classes_matrices o p2.2
      let result := projCompute p3.2.nnodes characters p3.1 dim o.order
      let pa := hAlloc p3.2.heapC result
      (.ok pa.2, { p3.2 with
        heapC := pa.1
        projection_operators := some (l.set jn (some pa.2)) })

/-- The per-IRR loop of `get_transformation_operator` over the remaining IRR
indices, carrying the accumulated rows.  For each index: fetch the character
table (the `IRR_dimension` read happens before the degeneracy test), skip
IRRs with zero degeneracy, otherwise get the projector, run the SVD (one
external call), collect the rows of `VH` whose singular value is within
`eps` of 1, and compare their number `R2` with `R1 =
int(IRR_dimension)*degens[j]`; on mismatch `raise Exception`. -/
def transLoop (o : Oracle) (degens : List ℤ) :
    List ℕ → List (List Cx) → St → Except Err (List (List Cx)) × St
  | [], result, st => (.ok result, st)
  | j :: rest, result, st =>
    let pct := get_character_table o st
    let dimension := (pyGetD pct.1 (j : ℤ) []).getD 0 0
    if degens.getD j 0 ≠ 0 then
      match get_projection_operator o pct.2 (j : ℤ) with
      | (.error e, st2) => (.error e, st2)
      | (.ok r, st2) =>
        let P := hGet st2.heapC r []
        let svdR := o.svd P
        let st3 := { st2 with calls := st2.calls + 1 }
        let rows := collectRows svdR.2.1 svdR.2.2
        let R1 := pyInt dimension.re * degens.getD j 0
        if R1 = (rows.length : ℤ) then
          transLoop o degens rest (result ++ rows) st3
        else (.error .exception, st3)
    else transLoop o degens rest result pct.2

/-- `get_transformation_operator`: on a cache hit return a copy of the cached
matrix.  Otherwise run the per-IRR loop over `range(len(degens))`; on success
stack the collected rows into the cached matrix and return a copy of it; the
`raise Exception` of a rank mismatch propagates with the cache field still
unset. -/
def get_transformation_operator (o : Oracle) (st : St) : Except Err ℕ × St :=
  match st.transformation_operator with
  | some rt =>
    let p := hAlloc st.heapC (hGet st.heapC rt [])
    (.ok p.2, { st with heapC := p.1 })
  | none =>
    let pd := get_IRR_degeneracies o st
    match transLoop o pd.1 (List.range pd.1.length) [] pd.2 with
    | (.error e, st2) => (.error e, st2)
    | (.ok result, st2) =>
      let pa := hAlloc st2.heapC result
      let st3 := { st2 with
        heapC := pa.1
        transformation_operator := some pa.2 }
      let pc := hAlloc st3.heapC (hGet st3.heapC pa.2 [])
      (.ok pc.2, { st3 with heapC := pc.1 })

end NetworkIRR

/-! ### Pure descriptions of what the code computes -/

/-- The degeneracy list `get_IRR_degeneracies` computes and caches, as a pure
function of the oracle data. -/
def degenList (o : Oracle) : List ℤ := degenOf o.charTable o.order o.classMats

/-- The projector `get_projection_operator` computes for a (wrapped,
in-range) index, as a pure function of the oracle data. -/
def projOpValue (o : Oracle) (n : ℕ) (jn : ℕ) : MatC :=
  projCompute n (o.charTable.getD jn []) o.classMats
    ((o.charTable.getD jn []).getD 0 0) o.order

/-- The rows `get_transformation_operator` collects for IRR `j`
(empty when the degeneracy is zero). -/
def contribution (o : Oracle) (n : ℕ) (j : ℕ) : MatC :=
  if (degenList o).getD j 0 ≠ 0 then
    collectRows (o.svd (projOpValue o n j)).2.1 (o.svd (projOpValue o n j)).2.2
  else []

/-- The theoretical rank `R1 = int(IRR_dimension)*degens[j]` of the code. -/
def R1code (o : Oracle) (j : ℕ) : ℤ :=
  pyInt ((o.charTable.getD j []).getD 0 0).re * (degenList o).getD j 0

/-- The observed rank `R2` of the code: number of singular values of the
projector within `eps` of 1. -/
def R2code (o : Oracle) (n : ℕ) (j : ℕ) : ℕ :=
  (collectRows (o.svd (projOpValue o n j)).2.1 (o.svd (projOpValue o n j)).2.2).length

/-- IRR `j` triggers the `R1 != R2` consistency failure. -/
def badIRR (o : Oracle) (n : ℕ) (j : ℕ) : Bool :=
  ((degenList o).getD j 0 != 0) && (R1code o j != (R2code o n j : ℤ))

/-- The matrix `get_transformation_operator` builds when every rank check
passes: the per-IRR row sets concatenated in IRR order. -/
def gatherCode (o : Oracle) (n : ℕ) : MatC :=
  ((List.range (degenList o).length).map (contribution o n)).flatten

/-! ### Specification-side definitions (from the spec's words) -/

/-- Spec formula for the degeneracy of IRR `i`:
`d_i = round( Re( Σ_j (|class_j| / |G|) · conj(character[i][j]) ·
trace(class_j[0]) ) )`, the sum ranging over the conjugacy classes `j`. -/
def specDegen (o : Oracle) (i : ℕ) : ℤ :=
  pyRound ((List.range o.classMats.length).foldl (fun total j =>
    total + Cx.ofRat (((o.classMats.getD j []).length : ℚ) / (o.order : ℚ)) *
      Cx.conj ((o.charTable.getD i []).getD j 0) *
      Cx.ofRat (traceR ((o.classMats.getD j []).headD []))) 0).re

/-- Dimension of IRR `i`: the character of the identity class,
entry `[i, 0]` of the character table (real for valid data). -/
def specDimension (o : Oracle) (i : ℕ) : ℚ := ((o.charTable.getD i []).getD 0 0).re

/-- Spec formula for the projection operator of IRR `i`:
`P_i = (dimension_i / |G|) · Σ_j Σ_{g ∈ class_j} character[i][j] · D(g)`,
with every element of every class contributing its own permutation matrix
weighted by its class's character value. -/
def specProjection (o : Oracle) (n : ℕ) (i : ℕ) : MatC :=
  mSMulQ (specDimension o i / (o.order : ℚ))
    (((List.range o.classMats.length).map (fun j =>
      (o.classMats.getD j []).map (fun g =>
        smulRC ((o.charTable.getD i []).getD j 0) g))).flatten.foldl mAddC
      (mZerosC n n))

/-- Spec-side collected rows for IRR `j`: rows of `V*` of the SVD of `P_j`
whose singular value is within `1e-12` of 1. -/
def specRows (o : Oracle) (n : ℕ) (j : ℕ) : MatC :=
  collectRows (o.svd (specProjection o n j)).2.1 (o.svd (specProjection o n j)).2.2

/-- Spec-side theoretical rank `R1 = dimension_j · degeneracy_j`. -/
def specR1 (o : Oracle) (j : ℕ) : ℤ := pyInt (specDimension o j) * specDegen o j

/-- Spec-side observed rank `R2`. -/
def specR2 (o : Oracle) (n : ℕ) (j : ℕ) : ℕ := (specRows o n j).length

/-- Spec formula for the transformation operator: concatenation, in
character-table row order, of the collected row sets of the IRRs with
nonzero degeneracy. -/
def gatherSpec (o : Oracle) (n : ℕ) : MatC :=
  ((List.range o.charTable.length).map (fun j =>
    if specDegen o j ≠ 0 then specRows o n j else [])).flatten

/-- The invariants the spec states for the oracle data of an `n`-node
network: positive group order; square character table with one row per
conjugacy class; real, positive integer dimensions in column 0; class sizes
summing to the group order; non-empty classes of `n × n` matrices; one
permutation matrix per group element. -/
abbrev WF (o : Oracle) (n : ℕ) : Prop :=
  0 < o.order ∧
  o.charTable.length = o.numIRRs ∧
  (∀ row ∈ o.charTable, row.length = o.numIRRs) ∧
  o.classMats.length = o.numIRRs ∧
  o.classReps.length = o.numIRRs ∧
  o.permMats.length = o.order ∧
  (∀ cls ∈ o.classMats, cls ≠ []) ∧
  (o.classMats.map List.length).sum = o.order ∧
  (∀ cls ∈ o.classMats, ∀ g ∈ cls, g.length = n ∧ ∀ row ∈ g, row.length = n) ∧
  (∀ row ∈ o.charTable, (row.getD 0 0).im = 0 ∧ 1 ≤ (row.getD 0 0).re ∧
    ((row.getD 0 0).re).den = 1)

/-- States reachable once the degeneracies have been computed on a fresh
object: adjacency matrix in heap cell 0, group data cached, degeneracy list
cached; the projector cache `l`, the complex heap `hC` and the call counter
`c` are the moving parts. -/
def stFam (o : Oracle) (m : MatR) (l : Option (List (Option ℕ)))
    (hC : List MatC) (c : ℕ) : St :=
  { heapR := [m]
    heapC := hC
    calls := c
    adjmat := some 0
    nnodes := m.length
    group := some ()
    orbits := some o.orbits
    permutation_matrices := none
    conjugacy_classes := some o.classReps
    conjugacy_classes_matrices := some o.classMats
    character_table := some o.charTable
    IRR_degeneracies := some (degenList o)
    projection_operators := l
    transformation_operator := none }

/-- The projector cache is consistent with the oracle: correct length, and
every filled entry references a live heap cell holding the projector the
code computes for that index. -/
def ProjCache (o : Oracle) (n : ℕ) :
    Option (List (Option ℕ)) → List MatC → Prop
  | none, _ => True
  | some l, hC => l.length = (degenList o).length ∧
      ∀ jn r, l.getD jn none = some r →
        r < hC.length ∧ hGet hC r [] = projOpValue o n jn

/-! ### Concrete data: the complete graph on two nodes (spec §8 scenario) -/

/-- 2×2 identity permutation matrix. -/
def idm2 : MatR := [[1, 0], [0, 1]]

/-- The swap permutation of the two nodes. -/
def swap2 : MatR := [[0, 1], [1, 0]]

/-- Adjacency matrix of the complete graph on two nodes. -/
def adj2 : MatR := [[0, 1], [1, 0]]

/-- Character table of Z2: trivial and sign IRR. -/
def ctZ2 : MatC := [[⟨1, 0⟩, ⟨1, 0⟩], [⟨1, 0⟩, ⟨-1, 0⟩]]

/-- Projector of the trivial IRR of the two-node graph. -/
def projZ2v0 : MatC := [[⟨1/2, 0⟩, ⟨1/2, 0⟩], [⟨1/2, 0⟩, ⟨1/2, 0⟩]]

/-- Projector of the sign IRR of the two-node graph. -/
def projZ2v1 : MatC := [[⟨1/2, 0⟩, ⟨-1/2, 0⟩], [⟨-1/2, 0⟩, ⟨1/2, 0⟩]]

/-- An SVD engine for the two projectors of the two-node graph (any
orthonormal factorization is acceptable to the code; only `W` and `VH`
are consumed). -/
def svdZ2 (m : MatC) : MatC × List ℚ × MatC :=
  if m = projZ2v0 then (m, [1, 0], [[⟨1, 0⟩, ⟨0, 0⟩], [⟨0, 0⟩, ⟨1, 0⟩]])
  else if m = projZ2v1 then (m, [1, 0], [[⟨0, 0⟩, ⟨1, 0⟩], [⟨1, 0⟩, ⟨0, 0⟩]])
  else (m, [], [])

/-- Oracle data of the complete graph on two nodes: automorphism group Z2. -/
def oZ2 : Oracle :=
  { order := 2
    permMats := [idm2, swap2]
    orbits := [[0, 1]]
    classReps := [idm2, swap2]
    classMats := [[idm2], [swap2]]
    charTable := ctZ2
    svd := svdZ2 }

/-- Same group data but with an SVD engine that reports no singular value
near 1, so every rank check `R1 = R2` fails. -/
def oZ2bad : Oracle :=
  { oZ2 with svd := fun m => (m, [0, 0], [[⟨1, 0⟩, ⟨0, 0⟩], [⟨0, 0⟩, ⟨1, 0⟩]]) }

/-! ### Concrete data: directed 4-cycle (cyclic group Z4, complex characters) -/

/-- 4×4 identity permutation matrix. -/
def idm4 : MatR := [[1,0,0,0],[0,1,0,0],[0,0,1,0],[0,0,0,1]]

/-- The 4-cycle permutation matrix. -/
def cyc4 : MatR := [[0,1,0,0],[0,0,1,0],[0,0,0,1],[1,0,0,0]]

/-- Square of the 4-cycle. -/
def cyc4sq : MatR := [[0,0,1,0],[0,0,0,1],[1,0,0,0],[0,1,0,0]]

/-- Cube of the 4-cycle. -/
def cyc4cb : MatR := [[0,0,0,1],[1,0,0,0],[0,1,0,0],[0,0,1,0]]

/-- Adjacency matrix of the directed 4-cycle. -/
def adj4 : MatR := [[0,1,0,0],[0,0,1,0],[0,0,0,1],[1,0,0,0]]

/-- Character table of Z4; rows 1 and 3 take the imaginary values `±i`. -/
def ctZ4 : MatC :=
  [[⟨1,0⟩, ⟨1,0⟩, ⟨1,0⟩, ⟨1,0⟩],
   [⟨1,0⟩, ⟨0,1⟩, ⟨-1,0⟩, ⟨0,-1⟩],
   [⟨1,0⟩, ⟨-1,0⟩, ⟨1,0⟩, ⟨-1,0⟩],
   [⟨1,0⟩, ⟨0,-1⟩, ⟨-1,0⟩, ⟨0,1⟩]]

/-- Oracle data of the directed 4-cycle: automorphism group Z4, with
genuinely complex character values.  The SVD engine is irrelevant for the
projector computation. -/
def oZ4 : Oracle :=
  { order := 4
    permMats := [idm4, cyc4, cyc4sq, cyc4cb]
    orbits := [[0, 1, 2, 3]]
    classReps := [idm4, cyc4, cyc4sq, cyc4cb]
    classMats := [[idm4], [cyc4], [cyc4sq], [cyc4cb]]
    charTable := ctZ4
    svd := fun m => (m, [], []) }

/-- The value a matrix-returning getter hands to the caller: the returned
heap reference dereferenced in the returned state's real-matrix heap. -/
def retR (p : Except Err ℕ × St) : Except Err MatR :=
  p.1.map (fun r => hGet p.2.heapR r [])

/-- The value a matrix-returning getter hands to the caller, complex-heap
version. -/
def retC (p : Except Err ℕ × St) : Except Err MatC :=
  p.1.map (fun r => hGet p.2.heapC r [])

/-- All instance fields of the state except the two heaps: the observable
cache content plus the external-call counter.  Two states with equal
`cacheFields` hold the same cached data and have performed the same number
of external calls. -/
def cacheFields (st : St) :=
  (st.calls, st.adjmat, st.nnodes, st.group, st.orbits,
    st.permutation_matrices, st.conjugacy_classes,
    st.conjugacy_classes_matrices, st.character_table,
    st.IRR_degeneracies, st.projection_operators,
    st.transformation_operator)

/-! ### Basic lemmas -/

lemma degenList_length (o : Oracle) : (degenList o).length = o.numIRRs := by
  simp [degenList, degenOf, Oracle.numIRRs]

lemma pyIdx_lt {len k : ℕ} (h : k < len) : pyIdx len (k : ℤ) = some k := by
  unfold pyIdx
  rw [if_pos ⟨Int.natCast_nonneg k, by exact_mod_cast h⟩]
  simp

lemma pyIdx_neg {len : ℕ} {j : ℤ} (h1 : -(len : ℤ) ≤ j) (h2 : j < 0) :
    pyIdx len j = some (j + len).toNat := by
  unfold pyIdx
  rw [if_neg (by omega), if_pos ⟨h1, h2⟩]

lemma pyIdx_out {len : ℕ} {j : ℤ} (h : (len : ℤ) ≤ j ∨ j < -(len : ℤ)) :
    pyIdx len j = none := by
  unfold pyIdx
  rw [if_neg (by omega), if_neg (by omega)]

lemma pyGetD_lt {l : List α} {k : ℕ} (h : k < l.length) (d : α) :
    pyGetD l (k : ℤ) d = l.getD k d := by
  simp [pyGetD, pyIdx_lt h]

lemma getD_replicate_lt {k n : ℕ} {x : Option ℕ} (h : k < n) :
    (List.replicate n x).getD k none = x := by
  simp [List.getD, List.getElem?_replicate, h]

lemma stFam_set_proj (o : Oracle) (m : MatR) (hC : List MatC) (c : ℕ)
    (l x : Option (List (Option ℕ))) :
    { stFam o m l hC c with projection_operators := x } = stFam o m x hC c := rfl

lemma stFam_set_heap_proj (o : Oracle) (m : MatR) (hC hC' : List MatC) (c : ℕ)
    (l x : Option (List (Option ℕ))) :
    { stFam o m l hC c with heapC := hC', projection_operators := x } =
      stFam o m x hC' c := rfl

lemma char_table_stFam (o : Oracle) (m : MatR) (l : Option (List (Option ℕ)))
    (hC : List MatC) (c : ℕ) :
    NetworkIRR.get_character_table o (stFam o m l hC c) =
      (o.charTable, stFam o m l hC c) := rfl

lemma group_stFam (o : Oracle) (m : MatR) (l : Option (List (Option ℕ)))
    (hC : List MatC) (c : ℕ) :
    NetworkIRR.get_automorphism_group o (stFam o m l hC c) =
      ((), stFam o m l hC c) := rfl

lemma cclsm_stFam (o : Oracle) (m : MatR) (l : Option (List (Option ℕ)))
    (hC : List MatC) (c : ℕ) :
    NetworkIRR.get_conjugacy_classes_matrices o (stFam o m l hC c) =
      (o.classMats, stFam o m l hC c) := rfl

lemma degens_stFam (o : Oracle) (m : MatR) (l : Option (List (Option ℕ)))
    (hC : List MatC) (c : ℕ) :
    NetworkIRR.get_IRR_degeneracies o (stFam o m l hC c) =
      (degenList o, stFam o m l hC c) := rfl

lemma degens_initSt (o : Oracle) (m : MatR) :
    NetworkIRR.get_IRR_degeneracies o (NetworkIRR.initSt m) =
      (degenList o, stFam o m none [] (3 + o.classReps.length)) := rfl

/-! ### The degeneracy formula (claim C1) -/

lemma degenList_eq_spec {o : Oracle} (h4 : o.classMats.length = o.numIRRs) :
    degenList o = (List.range o.numIRRs).map (specDegen o) := by
  unfold degenList degenOf specDegen
  apply List.map_congr_left
  intro i _
  rw [h4]
  rfl

/-- C1: on a fresh object whose oracle data satisfies the invariants,
`get_IRR_degeneracies` returns one integer per IRR, in character-table row
order, the `i`-th being
`round(Re(Σ_j (|class_j|/|G|) · conj(character[i][j]) · trace(class_j[0])))`. -/
theorem C1_degeneracy_formula (o : Oracle) (m : MatR) (hWF : WF o m.length) :
    (NetworkIRR.get_IRR_degeneracies o (NetworkIRR.initSt m)).1 =
      (List.range o.numIRRs).map (specDegen o) := by
  rw [degens_initSt]
  exact degenList_eq_spec hWF.2.2.2.1

/-- Witness for C1: the complete graph on two nodes; the degeneracy vector
is `[1, 1]` as the spec's concrete scenario states. -/
theorem C1_degeneracy_formula_witness :
    WF oZ2 adj2.length ∧
    (NetworkIRR.get_IRR_degeneracies oZ2 (NetworkIRR.initSt adj2)).1 =
      (List.range oZ2.numIRRs).map (specDegen oZ2) ∧
    (NetworkIRR.get_IRR_degeneracies oZ2 (NetworkIRR.initSt adj2)).1 = [1, 1] :=
  ⟨by decide, C1_degeneracy_formula oZ2 adj2 (by decide),
    by with_unfolding_all decide⟩

/-! ### The projector formula (claims C2, C7) -/

lemma mDivQ_mScaleQ (m : MatC) (q g : ℚ) :
    mDivQ (mScaleQ m q) g = mSMulQ (q / g) m := by
  simp only [mDivQ, mScaleQ, mSMulQ, List.map_map]
  apply List.map_congr_left
  intro row _
  simp only [Function.comp_apply, List.map_map]
  apply List.map_congr_left
  intro x _
  simp only [Function.comp_apply]
  congr 1
  · rw [mul_div_assoc, mul_comm]
  · rw [mul_div_assoc, mul_comm]

lemma projOpValue_eq_spec {o : Oracle} {n : ℕ} {i : ℕ} (hWF : WF o n)
    (hi : i < o.numIRRs) : projOpValue o n i = specProjection o n i := by
  obtain ⟨-, h2, h3, h4, -⟩ := hWF
  have hrow : (o.charTable.getD i []).length = o.numIRRs := by
    rw [List.getD_eq_getElem o.charTable [] (h2 ▸ hi)]
    exact h3 _ (List.getElem_mem (h2 ▸ hi))
  unfold projOpValue projCompute specProjection specDimension
  rw [mDivQ_mScaleQ]
  congr 1
  rw [List.foldl_flatten, List.foldl_map]
  simp only [List.foldl_map]
  rw [hrow, h4]

/-- Shape of a complex matrix: row count and length of every row. -/
def MShape (mat : MatC) (r c : ℕ) : Prop :=
  mat.length = r ∧ ∀ row ∈ mat, row.length = c

lemma mZerosC_shape (n k : ℕ) : MShape (mZerosC n k) n k := by
  constructor
  · simp [mZerosC]
  · intro row hrow
    unfold mZerosC at hrow
    rw [List.eq_of_mem_replicate hrow]
    simp

lemma mAddC_shape {a b : MatC} {n k : ℕ} (ha : MShape a n k)
    (hb : MShape b n k) : MShape (mAddC a b) n k := by
  constructor
  · simp [mAddC, ha.1, hb.1]
  · intro row hrow
    obtain ⟨i, hi, hx⟩ := List.mem_iff_getElem.1 hrow
    have hia : i < a.length := by simp [mAddC] at hi; omega
    have hib : i < b.length := by simp [mAddC] at hi; omega
    rw [← hx]
    unfold mAddC
    rw [List.getElem_zipWith]
    simp only [List.length_zipWith]
    rw [ha.2 _ (List.getElem_mem hia), hb.2 _ (List.getElem_mem hib)]
    omega

lemma smulRC_shape {g : MatR} {c : Cx} {n k : ℕ} (h1 : g.length = n)
    (h2 : ∀ row ∈ g, row.length = k) : MShape (smulRC c g) n k := by
  constructor
  · simp [smulRC, h1]
  · intro row hrow
    simp only [smulRC, List.mem_map] at hrow
    obtain ⟨r0, hr0, hrr⟩ := hrow
    rw [← hrr]
    simp [h2 r0 hr0]

lemma mSMulQ_shape {m : MatC} {q : ℚ} {n k : ℕ} (h : MShape m n k) :
    MShape (mSMulQ q m) n k := by
  constructor
  · simp [mSMulQ, h.1]
  · intro row hrow
    simp only [mSMulQ, List.mem_map] at hrow
    obtain ⟨r0, hr0, hrr⟩ := hrow
    rw [← hrr]
    simp [h.2 r0 hr0]

lemma foldl_mAddC_shape {n k : ℕ} :
    ∀ (L : List MatC) (acc : MatC), MShape acc n k →
      (∀ x ∈ L, MShape x n k) → MShape (L.foldl mAddC acc) n k := by
  intro L
  induction L with
  | nil => intro acc hacc _; exact hacc
  | cons x xs ih =>
    intro acc hacc hx
    exact ih _ (mAddC_shape hacc (hx x (by simp)))
      (fun y hy => hx y (by simp [hy]))

lemma specProjection_shape {o : Oracle} {n : ℕ} (i : ℕ) (hWF : WF o n) :
    MShape (specProjection o n i) n n := by
  have h9 := hWF.2.2.2.2.2.2.2.2.1
  unfold specProjection
  apply mSMulQ_shape
  apply foldl_mAddC_shape _ _ (mZerosC_shape n n)
  intro x hx
  simp only [List.mem_flatten, List.mem_map, List.mem_range] at hx
  obtain ⟨lst, ⟨j, hj, hlst⟩, hxl⟩ := hx
  rw [← hlst] at hxl
  simp only [List.mem_map] at hxl
  obtain ⟨g, hg, hgs⟩ := hxl
  have hcls : o.classMats.getD j [] ∈ o.classMats := by
    rw [List.getD_eq_getElem o.classMats [] hj]
    exact List.getElem_mem hj
  obtain ⟨hgl, hgr⟩ := h9 _ hcls g hg
  rw [← hgs]
  exact smulRC_shape hgl hgr

/-! ### Evaluating `get_projection_operator` on reachable states -/

lemma stFam_proj_field (o : Oracle) (m : MatR) (l : Option (List (Option ℕ)))
    (hC : List MatC) (c : ℕ) :
    (stFam o m l hC c).projection_operators = l := rfl

lemma stFam_heapC_field (o : Oracle) (m : MatR) (l : Option (List (Option ℕ)))
    (hC : List MatC) (c : ℕ) : (stFam o m l hC c).heapC = hC := rfl

lemma stFam_nnodes_field (o : Oracle) (m : MatR) (l : Option (List (Option ℕ)))
    (hC : List MatC) (c : ℕ) : (stFam o m l hC c).nnodes = m.length := rfl

lemma stFam_transf_field (o : Oracle) (m : MatR) (l : Option (List (Option ℕ)))
    (hC : List MatC) (c : ℕ) :
    (stFam o m l hC c).transformation_operator = none := rfl

lemma proj_initSt_eq (o : Oracle) (m : MatR) (j : ℤ) :
    NetworkIRR.get_projection_operator o (NetworkIRR.initSt m) j =
      NetworkIRR.get_projection_operator o
        (stFam o m none [] (3 + o.classReps.length)) j := by
  unfold NetworkIRR.get_projection_operator
  rw [degens_initSt, degens_stFam]

lemma proj_stFam_none (o : Oracle) (m : MatR) (hC : List MatC) (c : ℕ) (j : ℤ) :
    NetworkIRR.get_projection_operator o (stFam o m none hC c) j =
      NetworkIRR.get_projection_operator o
        (stFam o m (some (List.replicate (degenList o).length none)) hC c) j := by
  unfold NetworkIRR.get_projection_operator
  rw [degens_stFam, degens_stFam]
  simp only [stFam_proj_field, Option.isNone_none, Option.isNone_some, if_true,
    Bool.false_eq_true, if_false, stFam_set_proj]

lemma proj_stFam_some (o : Oracle) (m : MatR) (l : List (Option ℕ))
    (hC : List MatC) (c : ℕ) (j : ℤ) :
    NetworkIRR.get_projection_operator o (stFam o m (some l) hC c) j =
      match pyIdx l.length j with
      | none => (.error .indexError, stFam o m (some l) hC c)
      | some jn =>
        match l.getD jn none with
        | some r => (.ok r, stFam o m (some l) hC c)
        | none =>
          (.ok hC.length,
            stFam o m (some (l.set jn (some hC.length)))
              (hC ++ [projCompute m.length (pyGetD o.charTable j [])
                o.classMats ((pyGetD o.charTable j []).getD 0 0) o.order]) c) := by
  unfold NetworkIRR.get_projection_operator
  rw [degens_stFam]
  simp only [stFam_proj_field, Option.isNone_some, Bool.false_eq_true, if_false,
    Option.getD_some]
  cases hidx : pyIdx l.length j with
  | none => simp only [hidx]
  | some jn =>
    simp only [hidx]
    cases hent : l.getD jn none with
    | some r => simp only [hent]
    | none =>
      simp only [hent, char_table_stFam, group_stFam, cclsm_stFam,
        stFam_nnodes_field, stFam_heapC_field, hAlloc]
      rfl

lemma proj_initSt_run (o : Oracle) (m : MatR) (i : ℕ)
    (hct : o.charTable.length = o.numIRRs) (hi : i < o.numIRRs) :
    NetworkIRR.get_projection_operator o (NetworkIRR.initSt m) (i : ℤ) =
      (.ok 0, stFam o m
        (some ((List.replicate (degenList o).length none).set i (some 0)))
        [projOpValue o m.length i] (3 + o.classReps.length)) := by
  rw [proj_initSt_eq, proj_stFam_none, proj_stFam_some]
  have hlen : (List.replicate (degenList o).length (none : Option ℕ)).length =
      o.numIRRs := by simp [degenList_length]
  rw [hlen, pyIdx_lt hi]
  have hent : (List.replicate (degenList o).length (none : Option ℕ)).getD i none
      = none := getD_replicate_lt (by rw [degenList_length]; exact hi)
  simp only [hent]
  rw [pyGetD_lt (by rw [hct]; exact hi)]
  rfl

/-- C2: for a valid IRR index `i`, `get_projection_operator(i)` on a fresh
object returns (a reference to) the `n × n` matrix
`(dimension_i / |G|) · Σ_j Σ_{g ∈ class_j} character[i][j] · D(g)`, every
element of every class contributing its own permutation matrix weighted by
its class's (unconjugated) character value. -/
theorem C2_projection_operator_formula (o : Oracle) (m : MatR) (i : ℕ)
    (hWF : WF o m.length) (hi : i < o.numIRRs) :
    (NetworkIRR.get_projection_operator o (NetworkIRR.initSt m) (i : ℤ)).1 =
      .ok 0 ∧
    hGet (NetworkIRR.get_projection_operator o
        (NetworkIRR.initSt m) (i : ℤ)).2.heapC 0 [] =
      specProjection o m.length i ∧
    MShape (specProjection o m.length i) m.length m.length := by
  rw [proj_initSt_run o m i hWF.2.1 hi]
  refine ⟨rfl, ?_, specProjection_shape i hWF⟩
  show hGet [projOpValue o m.length i] 0 [] = specProjection o m.length i
  rw [show hGet [projOpValue o m.length i] 0 [] = projOpValue o m.length i from rfl]
  exact projOpValue_eq_spec hWF hi

/-- Witness for C2: the complete graph on two nodes, trivial IRR; the
projector is `[[1/2, 1/2], [1/2, 1/2]]` as in the spec's concrete
scenario. -/
theorem C2_projection_operator_formula_witness :
    (WF oZ2 adj2.length ∧ 0 < oZ2.numIRRs) ∧
    ((NetworkIRR.get_projection_operator oZ2
        (NetworkIRR.initSt adj2) ((0 : ℕ) : ℤ)).1 = .ok 0 ∧
      hGet (NetworkIRR.get_projection_operator oZ2
          (NetworkIRR.initSt adj2) ((0 : ℕ) : ℤ)).2.heapC 0 [] =
        specProjection oZ2 adj2.length 0 ∧
      MShape (specProjection oZ2 adj2.length 0) adj2.length adj2.length) ∧
    specProjection oZ2 adj2.length 0 = projZ2v0 :=
  ⟨⟨by decide, by decide⟩,
    C2_projection_operator_formula oZ2 adj2 0 (by decide) (by decide),
    by with_unfolding_all decide⟩

/-- C7 counterexample: on the directed 4-cycle (automorphism group Z4, a
complex character row), the matrix returned by `get_projection_operator 1`
has entry `(0,1)` with imaginary part `1/4`: the complex group sum is not
cast or truncated to a real matrix before being returned. -/
theorem C7_counterexample :
    WF oZ4 adj4.length ∧
    (NetworkIRR.get_projection_operator oZ4
        (NetworkIRR.initSt adj4) ((1 : ℕ) : ℤ)).1 = .ok 0 ∧
    (((hGet (NetworkIRR.get_projection_operator oZ4
        (NetworkIRR.initSt adj4) ((1 : ℕ) : ℤ)).2.heapC 0 []).getD 0 []).getD 1
        0).im = 1/4 := by
  refine ⟨by decide, ?_, ?_⟩ <;> with_unfolding_all decide

/-- C7 amended: the matrix returned by `get_projection_operator` is the
complex-valued group sum itself; no cast to the real domain is performed and
imaginary parts are retained entrywise, not discarded. -/
theorem C7_amended_complex_result (o : Oracle) (m : MatR) (i : ℕ)
    (hWF : WF o m.length) (hi : i < o.numIRRs) :
    hGet (NetworkIRR.get_projection_operator o
        (NetworkIRR.initSt m) (i : ℤ)).2.heapC 0 [] =
      specProjection o m.length i ∧
    ∀ a b : ℕ,
      (((hGet (NetworkIRR.get_projection_operator o
          (NetworkIRR.initSt m) (i : ℤ)).2.heapC 0 []).getD a []).getD b
          0).im =
        (((specProjection o m.length i).getD a []).getD b 0).im := by
  rw [proj_initSt_run o m i hWF.2.1 hi]
  have hv : hGet (stFam o m
      (some ((List.replicate (degenList o).length none).set i (some 0)))
      [projOpValue o m.length i] (3 + o.classReps.length)).heapC 0 [] =
      projOpValue o m.length i := rfl
  rw [hv, projOpValue_eq_spec hWF hi]
  exact ⟨rfl, fun a b => rfl⟩

/-- Witness for the amended C7: the directed 4-cycle, IRR 1; the preserved
imaginary part at entry `(0,1)` is `1/4`. -/
theorem C7_amended_complex_result_witness :
    (WF oZ4 adj4.length ∧ 1 < oZ4.numIRRs) ∧
    (hGet (NetworkIRR.get_projection_operator oZ4
        (NetworkIRR.initSt adj4) ((1 : ℕ) : ℤ)).2.heapC 0 [] =
      specProjection oZ4 adj4.length 1 ∧
    ∀ a b : ℕ,
      (((hGet (NetworkIRR.get_projection_operator oZ4
          (NetworkIRR.initSt adj4) ((1 : ℕ) : ℤ)).2.heapC 0 []).getD a
          []).getD b 0).im =
        (((specProjection oZ4 adj4.length 1).getD a []).getD b 0).im) :=
  ⟨⟨by decide, by decide⟩,
    C7_amended_complex_result oZ4 adj4 1 (by decide) (by decide)⟩

/-! ### Index handling of `get_projection_operator` (claims C5, C10) -/

lemma getD_set_self {α : Type} {l : List α} {k : ℕ} {v d : α}
    (h : k < l.length) : (l.set k v).getD k d = v := by
  simp [List.getD, List.getElem?_set, h]

lemma getD_set_ne {α : Type} {l : List α} {k k' : ℕ} {v d : α}
    (h : k ≠ k') : (l.set k v).getD k' d = l.getD k' d := by
  simp [List.getD, List.getElem?_set, h]

lemma pyGetD_eq {l : List α} {j : ℤ} {k : ℕ} (h : pyIdx l.length j = some k)
    (d : α) : pyGetD l j d = l.getD k d := by
  simp [pyGetD, h]

lemma proj_initSt_run' (o : Oracle) (m : MatR) (j : ℤ) (jn : ℕ)
    (hct : o.charTable.length = o.numIRRs)
    (hidx : pyIdx o.numIRRs j = some jn) (hjn : jn < o.numIRRs) :
    NetworkIRR.get_projection_operator o (NetworkIRR.initSt m) j =
      (.ok 0, stFam o m
        (some ((List.replicate (degenList o).length none).set jn (some 0)))
        [projOpValue o m.length jn] (3 + o.classReps.length)) := by
  rw [proj_initSt_eq, proj_stFam_none, proj_stFam_some]
  have hlen : (List.replicate (degenList o).length (none : Option ℕ)).length =
      o.numIRRs := by simp [degenList_length]
  rw [hlen, hidx]
  have hent : (List.replicate (degenList o).length (none : Option ℕ)).getD jn
      none = none := getD_replicate_lt (by rw [degenList_length]; exact hjn)
  simp only [hent]
  have hrow : pyGetD o.charTable j [] = o.charTable.getD jn [] := by
    apply pyGetD_eq
    rw [hct]
    exact hidx
  rw [hrow]
  rfl

/-- C5 counterexample: on the two-node graph (two IRRs), index `-1` is
outside `[0, numIRRs)` yet `get_projection_operator` succeeds, and at
index `numIRRs = 2` the call does fail with the index error but the state
has changed: the degeneracy vector `[1, 1]` was computed and cached first. -/
theorem C5_counterexample :
    (NetworkIRR.get_projection_operator oZ2
        (NetworkIRR.initSt adj2) (-1)).1 ≠ .error .indexError ∧
    (NetworkIRR.get_projection_operator oZ2
        (NetworkIRR.initSt adj2) 2).1 = .error .indexError ∧
    (NetworkIRR.get_projection_operator oZ2
        (NetworkIRR.initSt adj2) 2).2 ≠ NetworkIRR.initSt adj2 ∧
    (NetworkIRR.initSt adj2).IRR_degeneracies = none ∧
    (NetworkIRR.get_projection_operator oZ2
        (NetworkIRR.initSt adj2) 2).2.IRR_degeneracies = some [1, 1] := by
  refine ⟨?_, ?_, ?_, ?_, ?_⟩ <;> with_unfolding_all decide

/-- C5 amended: for `j ≥ numIRRs` or `j < -numIRRs`,
`get_projection_operator(j)` raises the index error, but only after
computing and caching the IRR degeneracies (and the upstream group data)
and initializing the projector cache list, so the state does change. -/
theorem C5_amended_out_of_range (o : Oracle) (m : MatR) (j : ℤ)
    (hout : (o.numIRRs : ℤ) ≤ j ∨ j < -(o.numIRRs : ℤ)) :
    NetworkIRR.get_projection_operator o (NetworkIRR.initSt m) j =
      (.error .indexError,
        stFam o m (some (List.replicate (degenList o).length none)) []
          (3 + o.classReps.length)) ∧
    (NetworkIRR.initSt m).IRR_degeneracies = none ∧
    (stFam o m (some (List.replicate (degenList o).length none)) []
        (3 + o.classReps.length)).IRR_degeneracies = some (degenList o) := by
  refine ⟨?_, rfl, rfl⟩
  rw [proj_initSt_eq, proj_stFam_none, proj_stFam_some]
  have hidx : pyIdx
      (List.replicate (degenList o).length (none : Option ℕ)).length j = none := by
    rw [List.length_replicate, degenList_length]
    exact pyIdx_out hout
  simp only [hidx]

/-- Witness for the amended C5: two-node graph, index `numIRRs = 2`. -/
theorem C5_amended_out_of_range_witness :
    ((oZ2.numIRRs : ℤ) ≤ 2 ∨ (2 : ℤ) < -(oZ2.numIRRs : ℤ)) ∧
    (NetworkIRR.get_projection_operator oZ2 (NetworkIRR.initSt adj2) 2 =
      (.error .indexError,
        stFam oZ2 adj2 (some (List.replicate (degenList oZ2).length none)) []
          (3 + oZ2.classReps.length)) ∧
    (NetworkIRR.initSt adj2).IRR_degeneracies = none ∧
    (stFam oZ2 adj2 (some (List.replicate (degenList oZ2).length none)) []
        (3 + oZ2.classReps.length)).IRR_degeneracies = some (degenList oZ2)) :=
  ⟨by decide, C5_amended_out_of_range oZ2 adj2 2 (by decide)⟩

/-- C10: for `-numIRRs ≤ j < 0`, `get_projection_operator(j)` does not
fail: Python indexing wraps, the call returns exactly what
`get_projection_operator(numIRRs + j)` returns, and the projector is cached
at position `numIRRs + j`. -/
theorem C10_negative_index_wraps (o : Oracle) (m : MatR) (j : ℤ)
    (hWF : WF o m.length) (h1 : -(o.numIRRs : ℤ) ≤ j) (h2 : j < 0) :
    NetworkIRR.get_projection_operator o (NetworkIRR.initSt m) j =
      NetworkIRR.get_projection_operator o (NetworkIRR.initSt m)
        ((o.numIRRs : ℤ) + j) ∧
    (NetworkIRR.get_projection_operator o (NetworkIRR.initSt m) j).1 =
      .ok 0 ∧
    ((NetworkIRR.get_projection_operator o (NetworkIRR.initSt m)
        j).2.projection_operators.getD []).getD (j + o.numIRRs).toNat none =
      some 0 := by
  have hjn : (j + (o.numIRRs : ℤ)).toNat < o.numIRRs := by omega
  have hidx1 : pyIdx o.numIRRs j = some (j + (o.numIRRs : ℤ)).toNat :=
    pyIdx_neg h1 h2
  have hidx2 : pyIdx o.numIRRs ((o.numIRRs : ℤ) + j) =
      some (j + (o.numIRRs : ℤ)).toNat := by
    unfold pyIdx
    rw [if_pos ⟨by omega, by omega⟩]
    congr 1
    omega
  rw [proj_initSt_run' o m j _ hWF.2.1 hidx1 hjn,
    proj_initSt_run' o m _ _ hWF.2.1 hidx2 hjn]
  refine ⟨rfl, rfl, ?_⟩
  rw [stFam_proj_field, Option.getD_some]
  exact getD_set_self (by rw [List.length_replicate, degenList_length]; exact hjn)

/-- Witness for C10: two-node graph, index `-1` behaves as index `1`. -/
theorem C10_negative_index_wraps_witness :
    (WF oZ2 adj2.length ∧ -(oZ2.numIRRs : ℤ) ≤ -1 ∧ (-1 : ℤ) < 0) ∧
    (NetworkIRR.get_projection_operator oZ2 (NetworkIRR.initSt adj2) (-1) =
      NetworkIRR.get_projection_operator oZ2 (NetworkIRR.initSt adj2)
        ((oZ2.numIRRs : ℤ) + -1) ∧
    (NetworkIRR.get_projection_operator oZ2
        (NetworkIRR.initSt adj2) (-1)).1 = .ok 0 ∧
    ((NetworkIRR.get_projection_operator oZ2 (NetworkIRR.initSt adj2)
        (-1)).2.projection_operators.getD []).getD
        ((-1 : ℤ) + oZ2.numIRRs).toNat none = some 0) :=
  ⟨⟨by decide, by decide, by decide⟩,
    C10_negative_index_wraps oZ2 adj2 (-1) (by decide) (by decide) (by decide)⟩

/-! ### The transformation-operator loop (claims C3, C4) -/

lemma getD_append_left {α : Type} {l : List α} {v d : α} {k : ℕ}
    (h : k < l.length) : (l ++ [v]).getD k d = l.getD k d := by
  simp [List.getD, List.getElem?_append_left h]

lemma getD_append_self {α : Type} (l : List α) (v d : α) :
    (l ++ [v]).getD l.length d = v := by
  simp [List.getD]

lemma stFam_calls_field (o : Oracle) (m : MatR) (l : Option (List (Option ℕ)))
    (hC : List MatC) (c : ℕ) : (stFam o m l hC c).calls = c := rfl

lemma stFam_set_calls (o : Oracle) (m : MatR) (l : Option (List (Option ℕ)))
    (hC : List MatC) (c x : ℕ) :
    { stFam o m l hC c with calls := x } = stFam o m l hC x := rfl

lemma proj_stFam_step (o : Oracle) (m : MatR) (l : List (Option ℕ))
    (hC : List MatC) (c : ℕ) (j : ℕ)
    (hct : o.charTable.length = o.numIRRs)
    (hlen : l.length = (degenList o).length) (hj : j < o.numIRRs)
    (hinv : ∀ jn r, l.getD jn none = some r → r < hC.length ∧
      hGet hC r [] = projOpValue o m.length jn) :
    ∃ r l₀ hC₀,
      NetworkIRR.get_projection_operator o (stFam o m (some l) hC c)
          ((j : ℕ) : ℤ) = (.ok r, stFam o m (some l₀) hC₀ c) ∧
      r < hC₀.length ∧
      hGet hC₀ r [] = projOpValue o m.length j ∧
      l₀.length = (degenList o).length ∧
      (∀ jn r', l₀.getD jn none = some r' → r' < hC₀.length ∧
        hGet hC₀ r' [] = projOpValue o m.length jn) ∧
      (∀ jn r', l.getD jn none = some r' → l₀.getD jn none = some r') ∧
      hC.length ≤ hC₀.length ∧
      (∀ rr, rr < hC.length → hGet hC₀ rr [] = hGet hC rr []) := by
  have hidx : pyIdx l.length ((j : ℕ) : ℤ) = some j := by
    rw [hlen, degenList_length]
    exact pyIdx_lt hj
  cases hent : l.getD j none with
  | some r =>
    refine ⟨r, l, hC, ?_, (hinv _ _ hent).1, (hinv _ _ hent).2, hlen, hinv,
      fun _ _ h => h, le_refl _, fun _ _ => rfl⟩
    rw [proj_stFam_some]
    simp only [hidx, hent]
  | none =>
    have hjl : j < l.length := by rw [hlen, degenList_length]; exact hj
    refine ⟨hC.length, l.set j (some hC.length),
      hC ++ [projOpValue o m.length j], ?_, ?_, ?_, ?_, ?_, ?_, ?_, ?_⟩
    · rw [proj_stFam_some]
      simp only [hidx, hent]
      have hrow : pyGetD o.charTable ((j : ℕ) : ℤ) [] = o.charTable.getD j []
        := pyGetD_eq (by rw [hct]; exact pyIdx_lt hj) []
      rw [hrow]
      rfl
    · simp
    · show (hC ++ [projOpValue o m.length j]).getD hC.length [] = _
      exact getD_append_self hC _ []
    · simp [hlen]
    · intro jn r' hsome
      by_cases hjj : jn = j
      · subst hjj
        rw [getD_set_self hjl] at hsome
        have hr' := Option.some.inj hsome
        subst hr'
        refine ⟨by simp, ?_⟩
        show (hC ++ [projOpValue o m.length jn]).getD hC.length [] = _
        exact getD_append_self hC _ []
      · rw [getD_set_ne (fun h => hjj h.symm)] at hsome
        obtain ⟨hb, hv⟩ := hinv _ _ hsome
        refine ⟨by simp; omega, ?_⟩
        show (hC ++ [projOpValue o m.length j]).getD r' [] = _
        rw [getD_append_left hb]
        exact hv
    · intro jn r' hsome
      by_cases hjj : jn = j
      · subst hjj
        rw [hent] at hsome
        cases hsome
      · rw [getD_set_ne (fun h => hjj h.symm)]
        exact hsome
    · simp
    · intro rr hrr
      show (hC ++ [projOpValue o m.length j]).getD rr [] = hC.getD rr []
      exact getD_append_left hrr

lemma transLoop_run (o : Oracle) (m : MatR)
    (hct : o.charTable.length = o.numIRRs) :
    ∀ (js : List ℕ) (acc : List (List Cx)) (l : List (Option ℕ))
      (hC : List MatC) (c : ℕ),
      (∀ j ∈ js, j < o.numIRRs) →
      l.length = (degenList o).length →
      (∀ jn r, l.getD jn none = some r → r < hC.length ∧
        hGet hC r [] = projOpValue o m.length jn) →
      ∃ l' hC' c',
        l'.length = (degenList o).length ∧
        (∀ jn r, l'.getD jn none = some r → r < hC'.length ∧
          hGet hC' r [] = projOpValue o m.length jn) ∧
        (∀ jn r, l.getD jn none = some r → l'.getD jn none = some r) ∧
        hC.length ≤ hC'.length ∧
        (∀ rr, rr < hC.length → hGet hC' rr [] = hGet hC rr []) ∧
        NetworkIRR.transLoop o (degenList o) js acc
            (stFam o m (some l) hC c) =
          match js.find? (fun j => badIRR o m.length j) with
          | none => (.ok (acc ++ (js.map (contribution o m.length)).flatten),
              stFam o m (some l') hC' c')
          | some _ => (.error .exception, stFam o m (some l') hC' c') := by
  intro js
  induction js with
  | nil =>
    intro acc l hC c _ hlen hinv
    exact ⟨l, hC, c, hlen, hinv, fun _ _ h => h, le_refl _, fun _ _ => rfl,
      by simp [NetworkIRR.transLoop]⟩
  | cons j rest ih =>
    intro acc l hC c hjs hlen hinv
    have hj : j < o.numIRRs := hjs j (by simp)
    by_cases hdeg : (degenList o).getD j 0 = 0
    · have hbad : badIRR o m.length j = false := by
        unfold badIRR
        rw [hdeg]
        simp
      obtain ⟨l', hC', c', h1, h2, h3, h4, h5, heq⟩ :=
        ih acc l hC c (fun x hx => hjs x (List.mem_cons_of_mem _ hx)) hlen hinv
      refine ⟨l', hC', c', h1, h2, h3, h4, h5, ?_⟩
      rw [List.find?_cons_of_neg _ (by simp [hbad])]
      have hstep : NetworkIRR.transLoop o (degenList o) (j :: rest) acc
          (stFam o m (some l) hC c) =
          NetworkIRR.transLoop o (degenList o) rest acc
            (stFam o m (some l) hC c) := by
        simp only [NetworkIRR.transLoop, char_table_stFam]
        rw [if_neg (fun h => h hdeg)]
      rw [hstep, heq]
      have hcontrib : contribution o m.length j = [] := by
        unfold contribution
        rw [if_neg (fun h => h hdeg)]
      cases hfind : rest.find? (fun j => badIRR o m.length j) <;>
        simp [hfind, hcontrib]
    · obtain ⟨r, l₀, hC₀, heqp, hr, hP, hlen₀, hinv₀, hpres₀, hext₀, hold₀⟩ :=
        proj_stFam_step o m l hC c j hct hlen hj hinv
      have hstep : NetworkIRR.transLoop o (degenList o) (j :: rest) acc
          (stFam o m (some l) hC c) =
          (if R1code o j =
              ((collectRows (o.svd (projOpValue o m.length j)).2.1
                (o.svd (projOpValue o m.length j)).2.2).length : ℤ) then
            NetworkIRR.transLoop o (degenList o) rest
              (acc ++ collectRows (o.svd (projOpValue o m.length j)).2.1
                (o.svd (projOpValue o m.length j)).2.2)
              (stFam o m (some l₀) hC₀ (c + 1))
          else (.error .exception, stFam o m (some l₀) hC₀ (c + 1))) := by
        simp only [NetworkIRR.transLoop, char_table_stFam]
        rw [if_pos hdeg, heqp]
        simp only [stFam_heapC_field, stFam_calls_field, stFam_set_calls]
        rw [show hGet hC₀ r [] = projOpValue o m.length j from hP]
        have hrow : pyGetD o.charTable ((j : ℕ) : ℤ) [] =
            o.charTable.getD j [] :=
          pyGetD_eq (by rw [hct]; exact pyIdx_lt hj) []
        rw [hrow]
        rfl
      by_cases hbad : badIRR o m.length j = true
      · have hne : R1code o j ≠
            ((collectRows (o.svd (projOpValue o m.length j)).2.1
              (o.svd (projOpValue o m.length j)).2.2).length : ℤ) := by
          simp only [badIRR, bne_iff_ne, Bool.and_eq_true, ne_eq,
            decide_eq_true_eq] at hbad
          exact hbad.2
        refine ⟨l₀, hC₀, c + 1, hlen₀, hinv₀, hpres₀, hext₀, hold₀, ?_⟩
        rw [List.find?_cons_of_pos _ hbad, hstep, if_neg hne]
      · have hbad' : badIRR o m.length j = false := eq_false_of_ne_true hbad
        have heqr : R1code o j =
            ((collectRows (o.svd (projOpValue o m.length j)).2.1
              (o.svd (projOpValue o m.length j)).2.2).length : ℤ) := by
          by_contra hne
          exact hbad (by
            simp only [badIRR, Bool.and_eq_true, bne_iff_ne]
            exact ⟨hdeg, hne⟩)
        obtain ⟨l', hC', c', h1, h2, h3, h4, h5, heq⟩ :=
          ih (acc ++ collectRows (o.svd (projOpValue o m.length j)).2.1
              (o.svd (projOpValue o m.length j)).2.2) l₀ hC₀ (c + 1)
            (fun x hx => hjs x (List.mem_cons_of_mem _ hx)) hlen₀ hinv₀
        refine ⟨l', hC', c', h1, h2,
          fun jn r' hs => h3 _ _ (hpres₀ _ _ hs),
          le_trans hext₀ h4, ?_, ?_⟩
        · intro rr hrr
          rw [h5 rr (lt_of_lt_of_le hrr hext₀), hold₀ rr hrr]
        · rw [List.find?_cons_of_neg _ (by simp [hbad']), hstep, if_pos heqr,
            heq]
          have hcontrib : contribution o m.length j =
              collectRows (o.svd (projOpValue o m.length j)).2.1
                (o.svd (projOpValue o m.length j)).2.2 := by
            unfold contribution
            rw [if_pos hdeg]
          cases hfind : rest.find? (fun j => badIRR o m.length j) <;>
            simp [hfind, hcontrib, List.append_assoc]

lemma getD_replicate_none (k jn : ℕ) :
    (List.replicate k (none : Option ℕ)).getD jn none = none := by
  simp [List.getD, List.getElem?_replicate]
  split <;> rfl

lemma transLoop_run_none (o : Oracle) (m : MatR)
    (hct : o.charTable.length = o.numIRRs) :
    ∀ (js : List ℕ) (acc : List (List Cx)) (hC : List MatC) (c : ℕ),
      (∀ j ∈ js, j < o.numIRRs) →
      ∃ lopt' hC' c',
        hC.length ≤ hC'.length ∧
        (∀ rr, rr < hC.length → hGet hC' rr [] = hGet hC rr []) ∧
        NetworkIRR.transLoop o (degenList o) js acc
            (stFam o m none hC c) =
          match js.find? (fun j => badIRR o m.length j) with
          | none => (.ok (acc ++ (js.map (contribution o m.length)).flatten),
              stFam o m lopt' hC' c')
          | some _ => (.error .exception, stFam o m lopt' hC' c') := by
  intro js
  induction js with
  | nil =>
    intro acc hC c _
    exact ⟨none, hC, c, le_refl _, fun _ _ => rfl,
      by simp [NetworkIRR.transLoop]⟩
  | cons j rest ih =>
    intro acc hC c hjs
    have hj : j < o.numIRRs := hjs j (by simp)
    by_cases hdeg : (degenList o).getD j 0 = 0
    · have hbad : badIRR o m.length j = false := by
        unfold badIRR
        rw [hdeg]
        simp
      obtain ⟨lopt', hC', c', h4, h5, heq⟩ :=
        ih acc hC c (fun x hx => hjs x (List.mem_cons_of_mem _ hx))
      refine ⟨lopt', hC', c', h4, h5, ?_⟩
      rw [List.find?_cons_of_neg _ (by simp [hbad])]
      have hstep : NetworkIRR.transLoop o (degenList o) (j :: rest) acc
          (stFam o m none hC c) =
          NetworkIRR.transLoop o (degenList o) rest acc
            (stFam o m none hC c) := by
        simp only [NetworkIRR.transLoop, char_table_stFam]
        rw [if_neg (fun h => h hdeg)]
      rw [hstep, heq]
      have hcontrib : contribution o m.length j = [] := by
        unfold contribution
        rw [if_neg (fun h => h hdeg)]
      cases hfind : rest.find? (fun j => badIRR o m.length j) <;>
        simp [hfind, hcontrib]
    · obtain ⟨r, l₀, hC₀, heqp, hr, hP, hlen₀, hinv₀, hpres₀, hext₀, hold₀⟩ :=
        proj_stFam_step o m (List.replicate (degenList o).length none) hC c j
          hct (by simp) hj
          (fun jn r h => absurd h (by rw [getD_replicate_none]; simp))
      have hstep : NetworkIRR.transLoop o (degenList o) (j :: rest) acc
          (stFam o m none hC c) =
          (if R1code o j =
              ((collectRows (o.svd (projOpValue o m.length j)).2.1
                (o.svd (projOpValue o m.length j)).2.2).length : ℤ) then
            NetworkIRR.transLoop o (degenList o) rest
              (acc ++ collectRows (o.svd (projOpValue o m.length j)).2.1
                (o.svd (projOpValue o m.length j)).2.2)
              (stFam o m (some l₀) hC₀ (c + 1))
          else (.error .exception, stFam o m (some l₀) hC₀ (c + 1))) := by
        simp only [NetworkIRR.transLoop, char_table_stFam]
        rw [if_pos hdeg, proj_stFam_none, heqp]
        simp only [stFam_heapC_field, stFam_calls_field]
        rw [show hGet hC₀ r [] = projOpValue o m.length j from hP]
        have hrow : pyGetD o.charTable ((j : ℕ) : ℤ) [] =
            o.charTable.getD j [] :=
          pyGetD_eq (by rw [hct]; exact pyIdx_lt hj) []
        rw [hrow]
        rfl
      by_cases hbad : badIRR o m.length j = true
      · have hne : R1code o j ≠
            ((collectRows (o.svd (projOpValue o m.length j)).2.1
              (o.svd (projOpValue o m.length j)).2.2).length : ℤ) := by
          simp only [badIRR, Bool.and_eq_true, bne_iff_ne, ne_eq] at hbad
          exact hbad.2
        refine ⟨some l₀, hC₀, c + 1, hext₀, hold₀, ?_⟩
        rw [List.find?_cons_of_pos _ hbad, hstep, if_neg hne]
      · have heqr : R1code o j =
            ((collectRows (o.svd (projOpValue o m.length j)).2.1
              (o.svd (projOpValue o m.length j)).2.2).length : ℤ) := by
          by_contra hne
          exact hbad (by
            simp only [badIRR, Bool.and_eq_true, bne_iff_ne]
            exact ⟨hdeg, hne⟩)
        obtain ⟨l', hC', c', h1, h2, h3, h4, h5, heq⟩ :=
          transLoop_run o m hct rest
            (acc ++ collectRows (o.svd (projOpValue o m.length j)).2.1
              (o.svd (projOpValue o m.length j)).2.2) l₀ hC₀ (c + 1)
            (fun x hx => hjs x (List.mem_cons_of_mem _ hx)) hlen₀ hinv₀
        refine ⟨some l', hC', c', le_trans hext₀ h4, ?_, ?_⟩
        · intro rr hrr
          rw [h5 rr (lt_of_lt_of_le hrr hext₀), hold₀ rr hrr]
        · rw [List.find?_cons_of_neg _ (by simp [eq_false_of_ne_true hbad]),
            hstep, if_pos heqr, heq]
          have hcontrib : contribution o m.length j =
              collectRows (o.svd (projOpValue o m.length j)).2.1
                (o.svd (projOpValue o m.length j)).2.2 := by
            unfold contribution
            rw [if_pos hdeg]
          cases hfind : rest.find? (fun j => badIRR o m.length j) <;>
            simp [hfind, hcontrib, List.append_assoc]

lemma transLoop_run_opt (o : Oracle) (m : MatR)
    (hct : o.charTable.length = o.numIRRs) (lopt : Option (List (Option ℕ)))
    (hC : List MatC) (c : ℕ) (hcache : ProjCache o m.length lopt hC) :
    ∃ lopt' hC' c',
      hC.length ≤ hC'.length ∧
      (∀ rr, rr < hC.length → hGet hC' rr [] = hGet hC rr []) ∧
      (∀ jn r, (lopt.getD []).getD jn none = some r →
        (lopt'.getD [] : List (Option ℕ)).getD jn none = some r) ∧
      NetworkIRR.transLoop o (degenList o) (List.range (degenList o).length) []
          (stFam o m lopt hC c) =
        match (List.range (degenList o).length).find?
            (fun j => badIRR o m.length j) with
        | none => (.ok (gatherCode o m.length), stFam o m lopt' hC' c')
        | some _ => (.error .exception, stFam o m lopt' hC' c') := by
  have hbound : ∀ j ∈ List.range (degenList o).length, j < o.numIRRs := by
    intro j hj
    rw [← degenList_length o]
    exact List.mem_range.mp hj
  cases lopt with
  | none =>
    obtain ⟨lopt', hC', c', h4, h5, heq⟩ :=
      transLoop_run_none o m hct (List.range (degenList o).length) [] hC c
        hbound
    refine ⟨lopt', hC', c', h4, h5, ?_, ?_⟩
    · intro jn r h
      simp [List.getD] at h
    · rw [heq]
      cases hfind : (List.range (degenList o).length).find?
          (fun j => badIRR o m.length j) <;> simp [hfind, gatherCode]
  | some l =>
    obtain ⟨l', hC', c', h1, h2, h3, h4, h5, heq⟩ :=
      transLoop_run o m hct (List.range (degenList o).length) [] l hC c hbound
        hcache.1 hcache.2
    refine ⟨some l', hC', c', h4, h5, ?_, ?_⟩
    · intro jn r h
      simpa using h3 jn r (by simpa using h)
    · rw [heq]
      cases hfind : (List.range (degenList o).length).find?
          (fun j => badIRR o m.length j) <;> simp [hfind, gatherCode]

lemma trans_stFam_ok (o : Oracle) (m : MatR)
    (hct : o.charTable.length = o.numIRRs) (lopt : Option (List (Option ℕ)))
    (hC : List MatC) (c : ℕ) (hcache : ProjCache o m.length lopt hC)
    (hfind : (List.range (degenList o).length).find?
      (fun j => badIRR o m.length j) = none) :
    ∃ st' rc rt,
      NetworkIRR.get_transformation_operator o (stFam o m lopt hC c) =
        (.ok rc, st') ∧
      hGet st'.heapC rc [] = gatherCode o m.length ∧
      st'.transformation_operator = some rt ∧
      hGet st'.heapC rt [] = gatherCode o m.length := by
  obtain ⟨lopt', hC', c', hext, hold, hpres, heqloop⟩ :=
    transLoop_run_opt o m hct lopt hC c hcache
  rw [hfind] at heqloop
  have hself : hGet (hC' ++ [gatherCode o m.length]) hC'.length [] =
      gatherCode o m.length := getD_append_self hC' _ []
  simp only [NetworkIRR.get_transformation_operator, stFam_transf_field,
    degens_stFam]
  rw [heqloop]
  simp only [stFam_heapC_field, hAlloc, hGet]
  refine ⟨_, _, hC'.length, rfl, ?_, rfl, ?_⟩
  · show ((hC' ++ [gatherCode o m.length]) ++
        [(hC' ++ [gatherCode o m.length]).getD hC'.length []]).getD
        (hC' ++ [gatherCode o m.length]).length [] = gatherCode o m.length
    rw [getD_append_self]
    exact hself
  · show ((hC' ++ [gatherCode o m.length]) ++
        [(hC' ++ [gatherCode o m.length]).getD hC'.length []]).getD
        hC'.length [] = gatherCode o m.length
    rw [getD_append_left (by simp)]
    exact hself

lemma trans_stFam_err (o : Oracle) (m : MatR)
    (hct : o.charTable.length = o.numIRRs) (lopt : Option (List (Option ℕ)))
    (hC : List MatC) (c : ℕ) (hcache : ProjCache o m.length lopt hC) (jb : ℕ)
    (hfind : (List.range (degenList o).length).find?
      (fun j => badIRR o m.length j) = some jb) :
    ∃ lopt' hC' c',
      NetworkIRR.get_transformation_operator o (stFam o m lopt hC c) =
        (.error .exception, stFam o m lopt' hC' c') ∧
      hC.length ≤ hC'.length ∧
      (∀ rr, rr < hC.length → hGet hC' rr [] = hGet hC rr []) ∧
      (∀ jn r, (lopt.getD []).getD jn none = some r →
        (lopt'.getD [] : List (Option ℕ)).getD jn none = some r) := by
  obtain ⟨lopt', hC', c', hext, hold, hpres, heqloop⟩ :=
    transLoop_run_opt o m hct lopt hC c hcache
  rw [hfind] at heqloop
  refine ⟨lopt', hC', c', ?_, hext, hold, hpres⟩
  simp only [NetworkIRR.get_transformation_operator, stFam_transf_field,
    degens_stFam]
  rw [heqloop]

/-! ### Bridging the code-level and spec-level rank data -/

lemma degen_entry_spec {o : Oracle} {j : ℕ}
    (h4 : o.classMats.length = o.numIRRs) (hj : j < o.numIRRs) :
    (degenList o).getD j 0 = specDegen o j := by
  rw [degenList_eq_spec h4]
  rw [List.getD_eq_getElem _ _ (by simpa using hj)]
  simp

lemma R1code_eq_spec {o : Oracle} {j : ℕ}
    (h4 : o.classMats.length = o.numIRRs) (hj : j < o.numIRRs) :
    R1code o j = specR1 o j := by
  unfold R1code specR1 specDimension
  rw [degen_entry_spec h4 hj]

lemma R2code_eq_spec {o : Oracle} {n : ℕ} {j : ℕ} (hWF : WF o n)
    (hj : j < o.numIRRs) : R2code o n j = specR2 o n j := by
  unfold R2code specR2 specRows
  rw [projOpValue_eq_spec hWF hj]

lemma badIRR_eq_false {o : Oracle} {n : ℕ} {j : ℕ} (hWF : WF o n)
    (hj : j < o.numIRRs) (hgood : specDegen o j ≠ 0 →
      specR1 o j = (specR2 o n j : ℤ)) : badIRR o n j = false := by
  by_cases hdeg : specDegen o j = 0
  · unfold badIRR
    rw [degen_entry_spec hWF.2.2.2.1 hj, hdeg]
    simp
  · have h1 := hgood hdeg
    unfold badIRR
    rw [degen_entry_spec hWF.2.2.2.1 hj, R1code_eq_spec hWF.2.2.2.1 hj,
      R2code_eq_spec hWF hj, h1]
    simp

lemma badIRR_eq_true {o : Oracle} {n : ℕ} {j : ℕ} (hWF : WF o n)
    (hj : j < o.numIRRs) (hdeg : specDegen o j ≠ 0)
    (hne : specR1 o j ≠ (specR2 o n j : ℤ)) : badIRR o n j = true := by
  unfold badIRR
  rw [degen_entry_spec hWF.2.2.2.1 hj, R1code_eq_spec hWF.2.2.2.1 hj,
    R2code_eq_spec hWF hj]
  simp only [Bool.and_eq_true, bne_iff_ne]
  exact ⟨hdeg, hne⟩

lemma gatherCode_eq_spec {o : Oracle} {n : ℕ} (hWF : WF o n) :
    gatherCode o n = gatherSpec o n := by
  unfold gatherCode gatherSpec
  rw [degenList_length o, hWF.2.1]
  congr 1
  apply List.map_congr_left
  intro j hj
  have hjn : j < o.numIRRs := List.mem_range.mp hj
  unfold contribution specRows
  rw [degen_entry_spec hWF.2.2.2.1 hjn, projOpValue_eq_spec hWF hjn]

/-- C3: when the oracle data is well-formed and every IRR with nonzero
degeneracy passes the rank check, `get_transformation_operator` returns (a
copy of) the matrix assembled by taking the SVD of each such IRR's
projector, collecting the rows of `V*` whose singular value `w` satisfies
`|w - 1| < 1e-12`, and concatenating the collected row sets in
character-table row order; zero-degeneracy IRRs contribute no rows, and the
same matrix is what gets cached. -/
theorem C3_transformation_assembly (o : Oracle) (m : MatR)
    (hWF : WF o m.length)
    (hgood : ∀ j ∈ List.range o.charTable.length,
      specDegen o j ≠ 0 → specR1 o j = (specR2 o m.length j : ℤ)) :
    ∃ st' rc rt,
      NetworkIRR.get_transformation_operator o (NetworkIRR.initSt m) =
        (.ok rc, st') ∧
      hGet st'.heapC rc [] = gatherSpec o m.length ∧
      st'.transformation_operator = some rt ∧
      hGet st'.heapC rt [] = gatherSpec o m.length := by
  have hct := hWF.2.1
  have hinit : NetworkIRR.get_transformation_operator o (NetworkIRR.initSt m) =
      NetworkIRR.get_transformation_operator o
        (stFam o m none [] (3 + o.classReps.length)) := by
    have h1 : (NetworkIRR.initSt m).transformation_operator = none := rfl
    simp only [NetworkIRR.get_transformation_operator, h1, degens_initSt,
      degens_stFam, stFam_transf_field]
  have hfind : (List.range (degenList o).length).find?
      (fun j => badIRR o m.length j) = none := by
    apply List.find?_eq_none.2
    intro j hj
    have hjn : j < o.numIRRs := by
      rw [← degenList_length o]
      exact List.mem_range.mp hj
    have := badIRR_eq_false hWF hjn
      (hgood j (List.mem_range.mpr (by rw [hct]; exact hjn)))
    simp [this]
  obtain ⟨st', rc, rt, heq, h1, h2, h3⟩ :=
    trans_stFam_ok o m hct none [] (3 + o.classReps.length) trivial hfind
  rw [gatherCode_eq_spec hWF] at h1 h3
  exact ⟨st', rc, rt, by rw [hinit]; exact heq, h1, h2, h3⟩

/-- Witness for C3: the complete graph on two nodes; both IRRs have
degeneracy 1 and pass the rank check, and the assembled operator consists of
the two collected rows. -/
theorem C3_transformation_assembly_witness :
    (WF oZ2 adj2.length ∧
      (∀ j ∈ List.range oZ2.charTable.length,
        specDegen oZ2 j ≠ 0 → specR1 oZ2 j = (specR2 oZ2 adj2.length j : ℤ))) ∧
    (∃ st' rc rt,
      NetworkIRR.get_transformation_operator oZ2 (NetworkIRR.initSt adj2) =
        (.ok rc, st') ∧
      hGet st'.heapC rc [] = gatherSpec oZ2 adj2.length ∧
      st'.transformation_operator = some rt ∧
      hGet st'.heapC rt [] = gatherSpec oZ2 adj2.length) ∧
    gatherSpec oZ2 adj2.length =
      [[⟨1, 0⟩, ⟨0, 0⟩], [⟨0, 0⟩, ⟨1, 0⟩]] :=
  ⟨⟨by decide, by with_unfolding_all decide⟩,
    C3_transformation_assembly oZ2 adj2 (by decide)
      (by with_unfolding_all decide),
    by with_unfolding_all decide⟩

/-- C4: if some IRR with nonzero degeneracy fails the rank check
`R1 = R2`, `get_transformation_operator` aborts with a raised error instead
of returning a matrix; the transformation-operator cache field is left
unset while the cached degeneracy vector and every previously cached
projector (its cache slot and its heap cell) are unchanged. -/
theorem C4_rank_mismatch_aborts (o : Oracle) (m : MatR)
    (lopt : Option (List (Option ℕ))) (hC : List MatC) (c : ℕ)
    (hWF : WF o m.length) (hcache : ProjCache o m.length lopt hC)
    (hbad : ∃ j ∈ List.range o.charTable.length,
      specDegen o j ≠ 0 ∧ specR1 o j ≠ (specR2 o m.length j : ℤ)) :
    ∃ lopt' hC' c',
      NetworkIRR.get_transformation_operator o (stFam o m lopt hC c) =
        (.error .exception, stFam o m lopt' hC' c') ∧
      (stFam o m lopt' hC' c').transformation_operator = none ∧
      (stFam o m lopt' hC' c').IRR_degeneracies = some (degenList o) ∧
      (∀ jn r, (lopt.getD []).getD jn none = some r →
        (lopt'.getD [] : List (Option ℕ)).getD jn none = some r ∧
        hGet hC' r [] = hGet hC r []) := by
  have hct := hWF.2.1
  have hsome : ∃ x ∈ List.range (degenList o).length,
      badIRR o m.length x = true := by
    obtain ⟨j, hjmem, hdeg, hne⟩ := hbad
    have hjn : j < o.numIRRs := hct ▸ List.mem_range.mp hjmem
    exact ⟨j, List.mem_range.mpr (by rw [degenList_length]; exact hjn),
      badIRR_eq_true hWF hjn hdeg hne⟩
  have hfs : ((List.range (degenList o).length).find?
      (fun j => badIRR o m.length j)).isSome := List.find?_isSome.2 hsome
  obtain ⟨jb, hfind⟩ := Option.isSome_iff_exists.mp hfs
  obtain ⟨lopt', hC', c', heq, hext, hold, hpres⟩ :=
    trans_stFam_err o m hct lopt hC c hcache jb hfind
  refine ⟨lopt', hC', c', heq, rfl, rfl, ?_⟩
  intro jn r h
  refine ⟨hpres jn r h, ?_⟩
  cases lopt with
  | none => simp [List.getD] at h
  | some l => exact hold r (hcache.2 jn r (by simpa using h)).1

/-- Witness for C4: the two-node graph with an SVD engine reporting no
singular values near 1, run on a fresh cache: IRR 0 has `R1 = 1` but
`R2 = 0`, and the call aborts. -/
theorem C4_rank_mismatch_aborts_witness :
    (WF oZ2bad adj2.length ∧
      (∃ j ∈ List.range oZ2bad.charTable.length,
        specDegen oZ2bad j ≠ 0 ∧
          specR1 oZ2bad j ≠ (specR2 oZ2bad adj2.length j : ℤ))) ∧
    (∃ lopt' hC' c',
      NetworkIRR.get_transformation_operator oZ2bad
          (stFam oZ2bad adj2 none [] 0) =
        (.error .exception, stFam oZ2bad adj2 lopt' hC' c') ∧
      (stFam oZ2bad adj2 lopt' hC' c').transformation_operator = none ∧
      (stFam oZ2bad adj2 lopt' hC' c').IRR_degeneracies =
        some (degenList oZ2bad) ∧
      (∀ jn r, ((none : Option (List (Option ℕ))).getD []).getD jn none =
          some r →
        (lopt'.getD [] : List (Option ℕ)).getD jn none = some r ∧
        hGet hC' r [] = hGet ([] : List MatC) r [])) :=
  ⟨⟨by decide, by with_unfolding_all decide⟩,
    C4_rank_mismatch_aborts oZ2bad adj2 none [] 0 (by decide) trivial
      (by with_unfolding_all decide)⟩

/-! ### Setting the adjacency matrix (claim C8) -/

/-- C8 counterexample: the non-square matrix `[[0, 1]]` is accepted by
`_set_adjacency_matrix` without any error: the call succeeds, the state is
replaced (`nnodes` becomes the row count 1) and the caches are cleared —
no invalid-input rejection happens. -/
theorem C8_counterexample :
    (NetworkIRR.set_adjacency_matrix (NetworkIRR.initSt adj2)
        (some [[0, 1]])).1 = .ok () ∧
    (NetworkIRR.set_adjacency_matrix (NetworkIRR.initSt adj2)
        (some [[0, 1]])).2.nnodes = 1 ∧
    hGet (NetworkIRR.set_adjacency_matrix (NetworkIRR.initSt adj2)
        (some [[0, 1]])).2.heapR 1 [] = [[0, 1]] := by
  refine ⟨rfl, rfl, ?_⟩
  with_unfolding_all decide

/-- C8 amended: `_set_adjacency_matrix` performs no validation at all.  Any
supplied matrix — non-square and empty included — replaces the state
(`nnodes` = number of rows, a fresh heap cell holds the copied matrix) and
every cached field is cleared.  Only a missing matrix (`None`, whose
`.copy()` raises `AttributeError`) fails, and even then the caches have
already been cleared by the reset that runs first. -/
theorem C8_amended_no_validation (st : St) (m : MatR) :
    (NetworkIRR.set_adjacency_matrix st (some m)).1 = .ok () ∧
    (NetworkIRR.set_adjacency_matrix st (some m)).2.nnodes = m.length ∧
    (NetworkIRR.set_adjacency_matrix st (some m)).2.adjmat =
      some st.heapR.length ∧
    hGet (NetworkIRR.set_adjacency_matrix st (some m)).2.heapR
      st.heapR.length [] = m ∧
    (NetworkIRR.set_adjacency_matrix st (some m)).2.character_table = none ∧
    (NetworkIRR.set_adjacency_matrix st (some m)).2.IRR_degeneracies = none ∧
    (NetworkIRR.set_adjacency_matrix st (some m)).2.projection_operators =
      none ∧
    (NetworkIRR.set_adjacency_matrix st
        (some m)).2.transformation_operator = none ∧
    (NetworkIRR.set_adjacency_matrix st (some m)).2.group = none ∧
    (NetworkIRR.set_adjacency_matrix st (some m)).2.orbits = none ∧
    (NetworkIRR.set_adjacency_matrix st
        (some m)).2.permutation_matrices = none ∧
    (NetworkIRR.set_adjacency_matrix st (some m)).2.conjugacy_classes =
      none ∧
    (NetworkIRR.set_adjacency_matrix st
        (some m)).2.conjugacy_classes_matrices = none ∧
    (NetworkIRR.set_adjacency_matrix st none).1 = .error .attributeError ∧
    (NetworkIRR.set_adjacency_matrix st none).2 =
      NetworkIRR.reset_data st := by
  refine ⟨rfl, rfl, rfl, ?_, rfl, rfl, rfl, rfl, rfl, rfl, rfl, rfl, rfl,
    rfl, rfl⟩
  exact getD_append_self st.heapR m []

/-! ### Copy versus reference on returned matrices (claim C9) -/

lemma pyIdx_some_lt {len : ℕ} {j : ℤ} {k : ℕ} (h : pyIdx len j = some k) :
    k < len := by
  unfold pyIdx at h
  split at h
  · rename_i hc
    cases h
    omega
  · split at h
    · rename_i hc
      cases h
      omega
    · cases h

lemma mem_of_getD_set {l : List (Option ℕ)} {jn : ℕ} {v : Option ℕ}
    (h : jn < l.length) : v ∈ l.set jn v := by
  have hlt : jn < (l.set jn v).length := by simpa using h
  exact List.mem_iff_getElem.mpr ⟨jn, hlt, by simp [List.getElem_set]⟩

/-- C9 counterexample: on the two-node graph, `get_projection_operator 0`
returns heap reference 0, which is exactly the reference stored in the
internal projector cache; overwriting that heap cell (mutating the returned
array) changes what the cached entry dereferences to — the internal state
is corrupted, so the returned matrix is not a copy. -/
theorem C9_counterexample :
    (NetworkIRR.get_projection_operator oZ2
        (NetworkIRR.initSt adj2) 0).1 = .ok 0 ∧
    ((NetworkIRR.get_projection_operator oZ2
        (NetworkIRR.initSt adj2) 0).2.projection_operators.getD []).getD 0
        none = some 0 ∧
    hGet (NetworkIRR.get_projection_operator oZ2
        (NetworkIRR.initSt adj2) 0).2.heapC 0 [] = projZ2v0 ∧
    hGet ((NetworkIRR.get_projection_operator oZ2
        (NetworkIRR.initSt adj2) 0).2.heapC.set 0 []) 0 [] = [] ∧
    ([] : MatC) ≠ projZ2v0 := by
  refine ⟨?_, ?_, ?_, ?_, ?_⟩ <;> with_unfolding_all decide

/-- C9 amended: `get_adjacency_matrix` and `get_transformation_operator`
return fresh copies — mutating the returned heap cell leaves the internal
reference's value unchanged — but `get_projection_operator` returns the
internal cache reference itself, so the returned object aliases the cached
projector. -/
theorem C9_amended_copy_semantics :
    (∀ (st : St) (ra : ℕ), st.adjmat = some ra → ra < st.heapR.length →
      (NetworkIRR.get_adjacency_matrix st).1 = .ok st.heapR.length ∧
      (NetworkIRR.get_adjacency_matrix st).2.adjmat = some ra ∧
      ∀ M, hGet ((NetworkIRR.get_adjacency_matrix st).2.heapR.set
          st.heapR.length M) ra [] = hGet st.heapR ra []) ∧
    (∀ (o : Oracle) (st : St) (rt : ℕ),
      st.transformation_operator = some rt → rt < st.heapC.length →
      (NetworkIRR.get_transformation_operator o st).1 =
        .ok st.heapC.length ∧
      st.heapC.length ≠ rt ∧
      ∀ M, hGet ((NetworkIRR.get_transformation_operator o
          st).2.heapC.set st.heapC.length M) rt [] =
        hGet st.heapC rt []) ∧
    (∀ (o : Oracle) (st : St) (j : ℤ) (r : ℕ) (st₁ : St),
      NetworkIRR.get_projection_operator o st j = (.ok r, st₁) →
      some r ∈ st₁.projection_operators.getD []) := by
  refine ⟨?_, ?_, ?_⟩
  · intro st ra hadj hra
    unfold NetworkIRR.get_adjacency_matrix
    rw [hadj]
    refine ⟨rfl, rfl, ?_⟩
    intro M
    show ((st.heapR ++ [hGet st.heapR ra []]).set st.heapR.length M).getD
      ra [] = st.heapR.getD ra []
    rw [getD_set_ne (show st.heapR.length ≠ ra by omega),
      getD_append_left hra]
  · intro o st rt htr hrt
    unfold NetworkIRR.get_transformation_operator
    rw [htr]
    refine ⟨rfl, show st.heapC.length ≠ rt by omega, ?_⟩
    intro M
    show ((st.heapC ++ [hGet st.heapC rt []]).set st.heapC.length M).getD
      rt [] = st.heapC.getD rt []
    rw [getD_set_ne (show st.heapC.length ≠ rt by omega),
      getD_append_left hrt]
  · intro o st j r st₁ heq
    unfold NetworkIRR.get_projection_operator at heq
    simp only [] at heq
    split at heq
    · simp at heq
    · rename_i jn hidx
      have hjn := pyIdx_some_lt hidx
      split at heq
      · rename_i r0 hent
        rw [Prod.mk.injEq] at heq
        obtain ⟨h1, h2⟩ := heq
        injection h1 with h1
        subst h1
        subst h2
        rw [List.getD_eq_getElem _ none hjn] at hent
        rw [← hent]
        exact List.getElem_mem hjn
      · rename_i hent
        rw [Prod.mk.injEq] at heq
        obtain ⟨h1, h2⟩ := heq
        injection h1 with h1
        subst h1
        subst h2
        exact mem_of_getD_set hjn

/-- Witness for the amended C9, at the two-node complete graph: zeroing the
heap cell handed out by `get_adjacency_matrix` (resp. by
`get_transformation_operator`, whose cached matrix lives at reference 2)
leaves the internally referenced value intact, while the reference returned
by `get_projection_operator` for IRR 0 is literally a member of the internal
projector cache list. -/
theorem C9_amended_copy_semantics_witness :
    hGet ((NetworkIRR.get_adjacency_matrix
        (NetworkIRR.initSt adj2)).2.heapR.set
        (NetworkIRR.initSt adj2).heapR.length []) 0 [] =
      hGet (NetworkIRR.initSt adj2).heapR 0 [] ∧
    hGet ((NetworkIRR.get_transformation_operator oZ2
        ((NetworkIRR.get_transformation_operator oZ2
          (NetworkIRR.initSt adj2)).2)).2.heapC.set
        ((NetworkIRR.get_transformation_operator oZ2
          (NetworkIRR.initSt adj2)).2).heapC.length []) 2 [] =
      hGet ((NetworkIRR.get_transformation_operator oZ2
        (NetworkIRR.initSt adj2)).2).heapC 2 [] ∧
    some 0 ∈ ((NetworkIRR.get_projection_operator oZ2
        (NetworkIRR.initSt adj2) 0).2).projection_operators.getD [] :=
  ⟨(C9_amended_copy_semantics.1 (NetworkIRR.initSt adj2) 0
      (by with_unfolding_all rfl) (by with_unfolding_all decide)).2.2 [],
    (C9_amended_copy_semantics.2.1 oZ2
      ((NetworkIRR.get_transformation_operator oZ2
        (NetworkIRR.initSt adj2)).2) 2
      (by with_unfolding_all rfl) (by with_unfolding_all decide)).2.2 [],
    C9_amended_copy_semantics.2.2 oZ2 (NetworkIRR.initSt adj2) 0 0
      ((NetworkIRR.get_projection_operator oZ2
        (NetworkIRR.initSt adj2) 0).2)
      (by with_unfolding_all rfl)⟩

/-! ### Cache-hit behaviour of repeated calls (claim C6) -/

lemma getD_append_copy {α : Type} (h : List α) (ra : ℕ) (d : α) :
    (h ++ [h.getD ra d]).getD ra d = h.getD ra d := by
  rcases lt_trichotomy ra h.length with hlt | heqq | hgt
  · exact getD_append_left hlt
  · subst heqq
    exact getD_append_self h _ d
  · simp only [List.getD]
    rw [List.get?_eq_none.mpr (by simp; omega), List.get?_eq_none.mpr (by omega)]

lemma group_idem (o : Oracle) (st : St) :
    NetworkIRR.get_automorphism_group o
        ((NetworkIRR.get_automorphism_group o st).2) =
      NetworkIRR.get_automorphism_group o st := by
  cases hg : st.group <;> simp [NetworkIRR.get_automorphism_group, hg]

lemma table_idem (o : Oracle) (st : St) :
    NetworkIRR.get_character_table o
        ((NetworkIRR.get_character_table o st).2) =
      NetworkIRR.get_character_table o st := by
  cases h1 : st.character_table <;> cases hg : st.group <;>
    simp [NetworkIRR.get_character_table, NetworkIRR.get_automorphism_group,
      h1, hg]

lemma numIRRs_idem (o : Oracle) (st : St) :
    NetworkIRR.get_numIRRs o ((NetworkIRR.get_numIRRs o st).2) =
      NetworkIRR.get_numIRRs o st := by
  unfold NetworkIRR.get_numIRRs
  rw [table_idem]

lemma ccls_idem (o : Oracle) (st : St) :
    NetworkIRR.get_conjugacy_classes o
        ((NetworkIRR.get_conjugacy_classes o st).2) =
      NetworkIRR.get_conjugacy_classes o st := by
  cases h3 : st.conjugacy_classes <;> cases hg : st.group <;>
    simp [NetworkIRR.get_conjugacy_classes,
      NetworkIRR.get_automorphism_group, h3, hg]

lemma cclsm_idem (o : Oracle) (st : St) :
    NetworkIRR.get_conjugacy_classes_matrices o
        ((NetworkIRR.get_conjugacy_classes_matrices o st).2) =
      NetworkIRR.get_conjugacy_classes_matrices o st := by
  cases h3 : st.conjugacy_classes <;> cases h4 : st.conjugacy_classes_matrices
    <;> cases hg : st.group <;>
    simp [NetworkIRR.get_conjugacy_classes_matrices,
      NetworkIRR.get_conjugacy_classes, NetworkIRR.get_automorphism_group,
      h3, h4, hg]

lemma gmats_idem (o : Oracle) (st : St) :
    NetworkIRR.get_automorphism_group_matrices o
        ((NetworkIRR.get_automorphism_group_matrices o st).2) =
      NetworkIRR.get_automorphism_group_matrices o st := by
  cases hp : st.permutation_matrices <;> cases hg : st.group <;>
    simp [NetworkIRR.get_automorphism_group_matrices,
      NetworkIRR.get_automorphism_group, hp, hg]

lemma degens_idem (o : Oracle) (st : St) :
    NetworkIRR.get_IRR_degeneracies o
        ((NetworkIRR.get_IRR_degeneracies o st).2) =
      NetworkIRR.get_IRR_degeneracies o st := by
  cases hd : st.IRR_degeneracies <;>
    simp [NetworkIRR.get_IRR_degeneracies, hd]

lemma adjacency_second (st : St) :
    retR (NetworkIRR.get_adjacency_matrix
        ((NetworkIRR.get_adjacency_matrix st).2)) =
      retR (NetworkIRR.get_adjacency_matrix st) ∧
    cacheFields (NetworkIRR.get_adjacency_matrix
        ((NetworkIRR.get_adjacency_matrix st).2)).2 =
      cacheFields (NetworkIRR.get_adjacency_matrix st).2 := by
  cases hadj : st.adjmat with
  | none => simp [NetworkIRR.get_adjacency_matrix, hadj]
  | some ra =>
    simp only [NetworkIRR.get_adjacency_matrix, hadj]
    constructor
    · simp only [retR, Except.map, hGet, hAlloc]
      congr 1
      rw [getD_append_self, getD_append_self, getD_append_copy]
    · rfl

lemma orbits_second (o : Oracle) (st : St) :
    (NetworkIRR.get_orbits o ((NetworkIRR.get_orbits o st).2)).1 =
      (NetworkIRR.get_orbits o st).1 ∧
    cacheFields (NetworkIRR.get_orbits o
        ((NetworkIRR.get_orbits o st).2)).2 =
      cacheFields (NetworkIRR.get_orbits o st).2 := by
  cases hadj : st.adjmat <;> cases ho : st.orbits <;>
    simp [NetworkIRR.get_orbits, NetworkIRR.get_adjacency_matrix, hadj, ho,
      cacheFields]

lemma degens_post (o : Oracle) (st : St) :
    (NetworkIRR.get_IRR_degeneracies o st).2.IRR_degeneracies =
      some (NetworkIRR.get_IRR_degeneracies o st).1 := by
  cases hd : st.IRR_degeneracies <;>
    simp [NetworkIRR.get_IRR_degeneracies, hd]

lemma degens_cached {o : Oracle} {st : St} {d : List ℤ}
    (h : st.IRR_degeneracies = some d) :
    NetworkIRR.get_IRR_degeneracies o st = (d, st) := by
  unfold NetworkIRR.get_IRR_degeneracies
  rw [h]

lemma chain_frame (o : Oracle) (st : St) :
    ((NetworkIRR.get_conjugacy_classes_matrices o
      ((NetworkIRR.get_character_table o
        ((NetworkIRR.get_automorphism_group o
          ((NetworkIRR.get_character_table o st).2)).2)).2)).2).IRR_degeneracies
        = st.IRR_degeneracies ∧
    ((NetworkIRR.get_conjugacy_classes_matrices o
      ((NetworkIRR.get_character_table o
        ((NetworkIRR.get_automorphism_group o
          ((NetworkIRR.get_character_table o st).2)).2)).2)).2).projection_operators
        = st.projection_operators := by
  cases h1 : st.character_table <;> cases hg : st.group <;>
    cases h3 : st.conjugacy_classes <;>
    cases h4 : st.conjugacy_classes_matrices <;>
    simp [NetworkIRR.get_character_table, NetworkIRR.get_automorphism_group,
      NetworkIRR.get_conjugacy_classes_matrices,
      NetworkIRR.get_conjugacy_classes, h1, hg, h3, h4]

lemma proj_hit {o : Oracle} {st : St} {j : ℤ} {d : List ℤ}
    {l : List (Option ℕ)} {jn r : ℕ}
    (hd : st.IRR_degeneracies = some d) (hl : st.projection_operators = some l)
    (hidx : pyIdx l.length j = some jn) (hent : l.getD jn none = some r) :
    NetworkIRR.get_projection_operator o st j = (.ok r, st) := by
  unfold NetworkIRR.get_projection_operator
  rw [degens_cached hd]
  simp only [hl, Option.isNone_some, Bool.false_eq_true, if_false,
    Option.getD_some, hidx, hent]

lemma proj_miss_idx {o : Oracle} {st : St} {j : ℤ} {d : List ℤ}
    {l : List (Option ℕ)}
    (hd : st.IRR_degeneracies = some d) (hl : st.projection_operators = some l)
    (hidx : pyIdx l.length j = none) :
    NetworkIRR.get_projection_operator o st j = (.error .indexError, st) := by
  unfold NetworkIRR.get_projection_operator
  rw [degens_cached hd]
  simp only [hl, Option.isNone_some, Bool.false_eq_true, if_false,
    Option.getD_some, hidx]

lemma proj_post (o : Oracle) (st : St) (j : ℤ) :
    ∃ l₂ d₂,
      ((NetworkIRR.get_projection_operator o st j).2).projection_operators =
        some l₂ ∧
      ((NetworkIRR.get_projection_operator o st j).2).IRR_degeneracies =
        some d₂ ∧
      (match (NetworkIRR.get_projection_operator o st j).1 with
       | .error e => e = .indexError ∧ pyIdx l₂.length j = none
       | .ok r => ∃ jn, pyIdx l₂.length j = some jn ∧
           l₂.getD jn none = some r) := by
  obtain ⟨d, stD, hD⟩ : ∃ d stD,
      NetworkIRR.get_IRR_degeneracies o st = (d, stD) := ⟨_, _, rfl⟩
  have hDdeg : stD.IRR_degeneracies = some d := by
    have h := degens_post o st
    rw [hD] at h
    exact h
  unfold NetworkIRR.get_projection_operator
  rw [hD]
  simp only []
  cases hpo : stD.projection_operators with
  | none =>
    rw [if_pos (show (none : Option (List (Option ℕ))).isNone = true from rfl)]
    simp only [Option.getD_some]
    cases hidx : pyIdx (List.replicate d.length (none : Option ℕ)).length j with
    | none =>
      simp only [hidx]
      exact ⟨List.replicate d.length none, d, rfl, hDdeg, by trivial, hidx⟩
    | some jn =>
      simp only [hidx, getD_replicate_none]
      have hjn := pyIdx_some_lt hidx
      refine ⟨_, d, rfl, ?_, ?_⟩
      · rw [(chain_frame o _).1]
        exact hDdeg
      · refine ⟨jn, ?_, ?_⟩
        · rw [List.length_set]
          exact hidx
        · exact getD_set_self (by simpa using hjn)
  | some l =>
    rw [if_neg (show ¬((some l).isNone = true) by simp)]
    rw [hpo]
    simp only [Option.getD_some]
    cases hidx : pyIdx l.length j with
    | none =>
      simp only [hidx]
      exact ⟨l, d, hpo, hDdeg, by trivial, hidx⟩
    | some jn =>
      have hjn := pyIdx_some_lt hidx
      cases hent : l.getD jn none with
      | some r =>
        simp only [hidx, hent]
        exact ⟨l, d, hpo, hDdeg, ⟨jn, hidx, hent⟩⟩
      | none =>
        simp only [hidx, hent]
        refine ⟨_, d, rfl, ?_, ?_⟩
        · rw [(chain_frame o _).1]
          exact hDdeg
        · refine ⟨jn, ?_, ?_⟩
          · rw [List.length_set]
            exact hidx
          · exact getD_set_self (by simpa using hjn)

lemma proj_idem (o : Oracle) (st : St) (j : ℤ) :
    NetworkIRR.get_projection_operator o
        ((NetworkIRR.get_projection_operator o st j).2) j =
      NetworkIRR.get_projection_operator o st j := by
  obtain ⟨l₂, d₂, hl₂, hd₂, hbr⟩ := proj_post o st j
  cases hres : (NetworkIRR.get_projection_operator o st j).1 with
  | error e =>
    rw [hres] at hbr
    obtain ⟨he, hidx⟩ := hbr
    subst he
    rw [proj_miss_idx hd₂ hl₂ hidx]
    exact Prod.ext (by rw [hres]) rfl
  | ok r =>
    rw [hres] at hbr
    obtain ⟨jn, hidx, hent⟩ := hbr
    rw [proj_hit hd₂ hl₂ hidx hent]
    exact Prod.ext (by rw [hres]) rfl

lemma trans_hit {o : Oracle} {st : St} {rt : ℕ}
    (h : st.transformation_operator = some rt) :
    NetworkIRR.get_transformation_operator o st =
      (.ok st.heapC.length,
        { st with heapC := st.heapC ++ [hGet st.heapC rt []] }) := by
  unfold NetworkIRR.get_transformation_operator
  rw [h]
  rfl

lemma trans_miss_err {o : Oracle} {st : St} {dg : List ℤ} {stD : St}
    {e : Err} {st2 : St}
    (h : st.transformation_operator = none)
    (hD : NetworkIRR.get_IRR_degeneracies o st = (dg, stD))
    (hT : NetworkIRR.transLoop o dg (List.range dg.length) [] stD =
      (.error e, st2)) :
    NetworkIRR.get_transformation_operator o st = (.error e, st2) := by
  simp only [NetworkIRR.get_transformation_operator, h, hD, hT]

lemma trans_miss_ok {o : Oracle} {st : St} {dg : List ℤ} {stD : St}
    {result : List (List Cx)} {st2 : St}
    (h : st.transformation_operator = none)
    (hD : NetworkIRR.get_IRR_degeneracies o st = (dg, stD))
    (hT : NetworkIRR.transLoop o dg (List.range dg.length) [] stD =
      (.ok result, st2)) :
    NetworkIRR.get_transformation_operator o st =
      (.ok (st2.heapC ++ [result]).length,
        { st2 with
          heapC := (st2.heapC ++ [result]) ++
            [(st2.heapC ++ [result]).getD st2.heapC.length []]
          transformation_operator := some st2.heapC.length }) := by
  simp only [NetworkIRR.get_transformation_operator, h, hD, hT, hAlloc, hGet]

lemma trans_post {o : Oracle} {st : St} {r : ℕ} {st₁ : St}
    (h : NetworkIRR.get_transformation_operator o st = (.ok r, st₁)) :
    ∃ rt, st₁.transformation_operator = some rt ∧
      hGet st₁.heapC rt [] = hGet st₁.heapC r [] := by
  cases ht : st.transformation_operator with
  | some rt0 =>
    rw [trans_hit ht] at h
    rw [Prod.mk.injEq] at h
    obtain ⟨h1, h2⟩ := h
    injection h1 with h1
    subst h1
    subst h2
    refine ⟨rt0, ht, ?_⟩
    show (st.heapC ++ [st.heapC.getD rt0 []]).getD rt0 [] =
      (st.heapC ++ [st.heapC.getD rt0 []]).getD st.heapC.length []
    rw [getD_append_copy, getD_append_self]
  | none =>
    obtain ⟨dg, stD, hD⟩ : ∃ dg stD,
        NetworkIRR.get_IRR_degeneracies o st = (dg, stD) := ⟨_, _, rfl⟩
    obtain ⟨res, st2, hT⟩ : ∃ res st2,
        NetworkIRR.transLoop o dg (List.range dg.length) [] stD =
          (res, st2) := ⟨_, _, rfl⟩
    cases res with
    | error e =>
      rw [trans_miss_err ht hD hT] at h
      simp at h
    | ok result =>
      rw [trans_miss_ok ht hD hT] at h
      rw [Prod.mk.injEq] at h
      obtain ⟨h1, h2⟩ := h
      injection h1 with h1
      subst h1
      subst h2
      refine ⟨st2.heapC.length, rfl, ?_⟩
      show ((st2.heapC ++ [result]) ++
          [(st2.heapC ++ [result]).getD st2.heapC.length []]).getD
            st2.heapC.length [] =
        ((st2.heapC ++ [result]) ++
          [(st2.heapC ++ [result]).getD st2.heapC.length []]).getD
            (st2.heapC ++ [result]).length []
      rw [getD_append_copy, getD_append_self, getD_append_self]

lemma trans_second {o : Oracle} {st : St} {r : ℕ} {st₁ : St}
    (h : NetworkIRR.get_transformation_operator o st = (.ok r, st₁)) :
    retC (NetworkIRR.get_transformation_operator o st₁) =
      .ok (hGet st₁.heapC r []) ∧
    cacheFields (NetworkIRR.get_transformation_operator o st₁).2 =
      cacheFields st₁ := by
  obtain ⟨rt, hrt, hv⟩ := trans_post h
  rw [trans_hit hrt]
  constructor
  · show Except.ok
        ((st₁.heapC ++ [hGet st₁.heapC rt []]).getD st₁.heapC.length []) =
      Except.ok (hGet st₁.heapC r [])
    rw [getD_append_self, hv]
  · rfl

/-- C6: every getter, called a second time on the state left by the first
call, reuses the cache: the eight pure getters are literally idempotent
(same returned value and same final state, hence the same external-call
count); `get_adjacency_matrix` and `get_orbits` return the same value with
unchanged cache fields and call count (only a fresh defensive heap copy is
made); a second `get_projection_operator` call for any index is identical
to the first; and after a successful `get_transformation_operator`, the
second call returns the same matrix value and leaves every cache field and
the call count unchanged. -/
theorem C6_second_calls_cached (o : Oracle) (st : St) :
    (NetworkIRR.get_automorphism_group o
        ((NetworkIRR.get_automorphism_group o st).2) =
      NetworkIRR.get_automorphism_group o st) ∧
    (NetworkIRR.get_automorphism_group_matrices o
        ((NetworkIRR.get_automorphism_group_matrices o st).2) =
      NetworkIRR.get_automorphism_group_matrices o st) ∧
    (NetworkIRR.get_character_table o
        ((NetworkIRR.get_character_table o st).2) =
      NetworkIRR.get_character_table o st) ∧
    (NetworkIRR.get_conjugacy_classes o
        ((NetworkIRR.get_conjugacy_classes o st).2) =
      NetworkIRR.get_conjugacy_classes o st) ∧
    (NetworkIRR.get_conjugacy_classes_matrices o
        ((NetworkIRR.get_conjugacy_classes_matrices o st).2) =
      NetworkIRR.get_conjugacy_classes_matrices o st) ∧
    (NetworkIRR.get_numIRRs o ((NetworkIRR.get_numIRRs o st).2) =
      NetworkIRR.get_numIRRs o st) ∧
    (NetworkIRR.get_IRR_degeneracies o
        ((NetworkIRR.get_IRR_degeneracies o st).2) =
      NetworkIRR.get_IRR_degeneracies o st) ∧
    (retR (NetworkIRR.get_adjacency_matrix
        ((NetworkIRR.get_adjacency_matrix st).2)) =
      retR (NetworkIRR.get_adjacency_matrix st) ∧
     cacheFields (NetworkIRR.get_adjacency_matrix
        ((NetworkIRR.get_adjacency_matrix st).2)).2 =
      cacheFields (NetworkIRR.get_adjacency_matrix st).2) ∧
    ((NetworkIRR.get_orbits o ((NetworkIRR.get_orbits o st).2)).1 =
      (NetworkIRR.get_orbits o st).1 ∧
     cacheFields (NetworkIRR.get_orbits o
        ((NetworkIRR.get_orbits o st).2)).2 =
      cacheFields (NetworkIRR.get_orbits o st).2) ∧
    (∀ j : ℤ, NetworkIRR.get_projection_operator o
        ((NetworkIRR.get_projection_operator o st j).2) j =
      NetworkIRR.get_projection_operator o st j) ∧
    (∀ r st₁, NetworkIRR.get_transformation_operator o st = (.ok r, st₁) →
      retC (NetworkIRR.get_transformation_operator o st₁) =
          retC (NetworkIRR.get_transformation_operator o st) ∧
      cacheFields (NetworkIRR.get_transformation_operator o st₁).2 =
        cacheFields st₁) :=
  ⟨group_idem o st, gmats_idem o st, table_idem o st, ccls_idem o st,
    cclsm_idem o st, numIRRs_idem o st, degens_idem o st,
    adjacency_second st, orbits_second o st,
    fun j => proj_idem o st j,
    fun r st₁ h =>
      ⟨by rw [(trans_second h).1, h]; rfl, (trans_second h).2⟩⟩

/-- Witness for C6, at the two-node complete graph: the first
transformation-operator call succeeds (it returns heap reference 3), and
the second call returns the same matrix value with all cache fields and
the call count unchanged. -/
theorem C6_second_calls_cached_witness :
    NetworkIRR.get_transformation_operator oZ2 (NetworkIRR.initSt adj2) =
      (.ok 3, (NetworkIRR.get_transformation_operator oZ2
        (NetworkIRR.initSt adj2)).2) ∧
    retC (NetworkIRR.get_transformation_operator oZ2
        ((NetworkIRR.get_transformation_operator oZ2
          (NetworkIRR.initSt adj2)).2)) =
      retC (NetworkIRR.get_transformation_operator oZ2
        (NetworkIRR.initSt adj2)) ∧
    cacheFields (NetworkIRR.get_transformation_operator oZ2
        ((NetworkIRR.get_transformation_operator oZ2
          (NetworkIRR.initSt adj2)).2)).2 =
      cacheFields ((NetworkIRR.get_transformation_operator oZ2
        (NetworkIRR.initSt adj2)).2) :=
  ⟨by with_unfolding_all rfl,
    (C6_second_calls_cached oZ2
        (NetworkIRR.initSt adj2)).2.2.2.2.2.2.2.2.2.2 3
      ((NetworkIRR.get_transformation_operator oZ2
        (NetworkIRR.initSt adj2)).2)
      (by with_unfolding_all rfl)⟩
